import Mathlib

/-!
Verification of the proxy-pool lifecycle subsystem of the MyVisa-Bot
repository (src/proxy_manager.py, src/sites/usvisa.py, src/sites/canadavisa.py).

The Python code is shallowly embedded: file contents are lists of lines,
timestamps are integers (seconds), Python dictionaries are association lists,
Python sets are duplicate-free lists, and the network is an oracle function.
Every definition below is translated from the named source function.
-/

namespace MyVisaBot

/-! ## Python string primitives (modelled over `List Char`) -/

/-- Python whitespace test used by `str.strip` (ASCII subset, as in Lean core). -/
def wsChar (c : Char) : Bool := c.isWhitespace

/-- Strip leading and trailing whitespace from a character list (`str.strip()`). -/
def trimList (l : List Char) : List Char :=
  ((l.dropWhile wsChar).reverse.dropWhile wsChar).reverse

/-- Python `s.strip()`. -/
def pyStrip (s : String) : String := String.mk (trimList s.data)

/-- Python `s.startswith('#')`. -/
def startsHash (s : String) : Bool :=
  match s.data with
  | [] => false
  | c :: _ => c == '#'

/-- Truthiness of a stripped line combined with the comment test:
`line and not line.startswith('#')` for an already stripped `line`. -/
def isContentLine (t : String) : Bool := !t.data.isEmpty && !startsHash t

/-- Python `s.split('#')[0]`: the part of `s` before the first `'#'`. -/
def untilHash (s : String) : String := String.mk (s.data.takeWhile (fun c => c != '#'))

/-! ## Association lists modelling Python dictionaries

A Python `dict` is modelled as an association list with at most one binding
per key; the binding order is never observed, only lookups are. -/

/-- Dictionary lookup, `d.get(k)` returning `None` when absent. -/
def lookupKey {α : Type} (l : List (String × α)) (k : String) : Option α :=
  match l with
  | [] => none
  | (k2, v) :: rest => if k2 = k then some v else lookupKey rest k

/-- Dictionary lookup with default, `d.get(k, dflt)`. -/
def lookupD {α : Type} (l : List (String × α)) (k : String) (dflt : α) : α :=
  (lookupKey l k).getD dflt

/-- Dictionary deletion, `del d[k]` (a no-op when the key is absent). -/
def eraseKey {α : Type} (l : List (String × α)) (k : String) : List (String × α) :=
  l.filter (fun p => p.1 != k)

/-- Dictionary update, `d[k] = v`. -/
def setKey {α : Type} (l : List (String × α)) (k : String) (v : α) : List (String × α) :=
  (k, v) :: eraseKey l k

/-- Python `set.add` on a duplicate-free list model of a set. -/
def insertSet (l : List String) (x : String) : List String :=
  if l.contains x then l else x :: l

/-! ## ProxyManager state (src/proxy_manager.py)

Files are modelled by their list of lines (a missing file behaves as the
empty list, matching the `os.path.exists` guards which fall back to empty
sets).  The JSON health-cache file is `Option CacheSnap`, `none` meaning the
file does not exist. -/

/-- The JSON cache record written by `_save_valid_proxy_cache`. -/
structure CacheSnap where
  lastUpdated : Int
  validProxies : List String
  testedCount : Nat
  totalPoolCount : Nat
deriving DecidableEq

/-- The persistent and in-memory state of a `ProxyManager`. -/
structure MgrState where
  poolFile : List String
  blacklistFile : List String
  cache : Option CacheSnap
  lastTested : List (String × Int)
deriving DecidableEq

/-- Cache TTL: `timedelta(minutes=5)` in seconds. -/
def cacheTTL : Int := 300

/-- `self._test_cooldown = 300` (5 minute probe cooldown). -/
def testCooldown : Int := 300

/-- One line of the pool file contributes the stripped line when it is
non-blank and not a comment (`_calculate_valid_proxies`, pool loop). -/
def poolOf (lines : List String) : List String :=
  ((lines.map pyStrip).filter isContentLine).dedup

/-- The identity recorded by one blacklist line: strip, skip blank/comment
lines, then take the part before the first `'#'` and strip it
(`_calculate_valid_proxies`, blacklist loop). -/
def blIdOfLine (line : String) : Option String :=
  let t := pyStrip line
  if isContentLine t then
    let pid := pyStrip (untilHash t)
    if pid.data.isEmpty then none else some pid
  else none

/-- The set of identities recorded in the blacklist file. -/
def blacklistIds (lines : List String) : List String :=
  (lines.filterMap blIdOfLine).dedup

/-- `ProxyManager._calculate_valid_proxies`: pool minus blacklist. -/
def calcValidProxies (s : MgrState) : List String :=
  let pool := poolOf s.poolFile
  let bl := blacklistIds s.blacklistFile
  pool.filter (fun p => !bl.contains p)

/-- `ProxyManager.load_valid_proxies`: serve the JSON cache when it is
younger than five minutes, otherwise recompute. -/
def loadValidProxies (s : MgrState) (now : Int) : List String :=
  match s.cache with
  | some snap =>
      if now - snap.lastUpdated < cacheTTL then snap.validProxies
      else calcValidProxies s
  | none => calcValidProxies s

/-- `load_valid_proxies` together with its (absent) effect on the state: the
source performs no writes, so the state component is returned unchanged. -/
def loadValidProxiesSt (s : MgrState) (now : Int) : List String × MgrState :=
  (loadValidProxies s now, s)

/-- `ProxyManager._save_valid_proxy_cache`. -/
def saveValidProxyCache (s : MgrState) (valid tested : List String) (now : Int) : MgrState :=
  { s with cache := some { lastUpdated := now, validProxies := valid,
                           testedCount := tested.length, totalPoolCount := valid.length } }

/-- `ProxyManager._invalidate_cache`: delete the JSON cache file. -/
def invalidateCache (s : MgrState) : MgrState := { s with cache := none }

/-- The line appended by `add_to_blacklist`:
`f"{proxy_url}  # {reason} - {timestamp}"`. -/
def blacklistLine (e reason stamp : String) : String :=
  e ++ "  # " ++ reason ++ " - " ++ stamp

/-- `ProxyManager.add_to_blacklist`: append the proxy (if its identity is not
already recorded) and invalidate the cache; returns whether it was added.
The timestamp text is passed in as `stamp`. -/
def addToBlacklist (s : MgrState) (e reason stamp : String) : MgrState × Bool :=
  let existing := blacklistIds s.blacklistFile
  if !existing.contains e then
    ({ s with blacklistFile := s.blacklistFile ++ [blacklistLine e reason stamp],
              cache := none }, true)
  else (s, false)

/-- The removal test of `remove_from_blacklist`: a line is dropped when it is
a non-blank non-comment line whose stripped text contains the proxy URL as a
substring (Python `proxy_url in line_stripped`). -/
def containsSub (needle : List Char) : List Char → Bool
  | [] => needle.isEmpty
  | c :: rest => needle.isPrefixOf (c :: rest) || containsSub needle rest

/-- Whether `remove_from_blacklist` drops this line for proxy `e`. -/
def blRemoveMatch (e line : String) : Bool :=
  isContentLine (pyStrip line) && containsSub e.data (pyStrip line).data

/-- `ProxyManager.remove_from_blacklist`: rewrite the file keeping the lines
that do not match, invalidating the cache when anything was removed. -/
def removeFromBlacklist (s : MgrState) (e : String) : MgrState × Bool :=
  let kept := s.blacklistFile.filter (fun line => !blRemoveMatch e line)
  let removed := s.blacklistFile.any (fun line => blRemoveMatch e line)
  if removed then ({ s with blacklistFile := kept, cache := none }, true)
  else (s, false)

/-- `get_stats` pool count: non-blank lines whose raw text does not start
with `'#'` (note: `line.startswith('#')` is applied to the unstripped line),
counted with multiplicity. -/
def contentRaw (l : String) : Bool := !(pyStrip l).data.isEmpty && !startsHash l

/-- `get_stats`: the `pool_total` field. -/
def statsPoolTotal (lines : List String) : Nat := (lines.filter contentRaw).length

/-- `get_stats`: the `valid_proxies` field, `len(self.load_valid_proxies())`. -/
def statsValidCount (s : MgrState) (now : Int) : Nat := (loadValidProxies s now).length

/-! ## Probe-batch selection and the background cycle -/

/-- Eligibility under the probe cooldown:
`current_time - self._last_tested_proxies.get(proxy_url, 0) >= self._test_cooldown`. -/
def cooldownOk (lt : List (String × Int)) (now : Int) (p : String) : Bool :=
  testCooldown ≤ now - lookupD lt p 0

/-- The selection loop of `test_and_filter_proxies` when `respect_cooldown`
holds: append eligible proxies in encountered order, breaking as soon as the
batch length reaches `max_test` (the break is checked after appending). -/
def selectCooldownGo (lt : List (String × Int)) (now : Int) (maxTest : Nat)
    (acc : List String) : List String → List String
  | [] => acc.reverse
  | p :: rest =>
    if cooldownOk lt now p then
      let acc2 := p :: acc
      if maxTest ≤ acc2.length then acc2.reverse
      else selectCooldownGo lt now maxTest acc2 rest
    else selectCooldownGo lt now maxTest acc rest

/-- Cooldown-respecting batch selection of `test_and_filter_proxies`. -/
def selectCooldown (lt : List (String × Int)) (now : Int) (maxTest : Nat)
    (proxies : List String) : List String :=
  selectCooldownGo lt now maxTest [] proxies

/-- The batch selected by `test_and_filter_proxies`: the cooldown loop, or
`random.sample(proxies, min(len(proxies), max_test))` otherwise.  The sampler
of Python's `random` module is an oracle argument. -/
def selectTest (s : MgrState) (proxies : List String) (maxTest : Nat)
    (respectCooldown : Bool) (now : Int)
    (sample : List String → Nat → List String) : List String :=
  if respectCooldown then selectCooldown s.lastTested now maxTest proxies
  else sample proxies (min proxies.length maxTest)

/-- `ProxyManager.test_and_filter_proxies`: select the batch, return early on
an empty batch, otherwise record `last_tested = now` for every selected proxy
and keep those the network classifies as live (status 200); the network is
the oracle `live`. -/
def testAndFilterProxies (s : MgrState) (proxies : List String) (maxTest : Nat)
    (respectCooldown : Bool) (now : Int)
    (sample : List String → Nat → List String) (live : String → Bool) :
    MgrState × List String :=
  let tp := selectTest s proxies maxTest respectCooldown now sample
  if tp.isEmpty then (s, [])
  else ({ s with lastTested := tp.foldl (fun m p => setKey m p now) s.lastTested },
        tp.filter live)

/-- One cycle of `ProxyManager._background_proxy_updater`: recompute the
valid set; when it is non-empty, probe up to 10 proxies respecting the
cooldown and save the cache; when it is empty, only a warning is logged and
the state is untouched.  `respect_cooldown=True` makes the sampler argument
dead code, so a dummy sampler is passed. -/
def backgroundProxyCycle (s : MgrState) (now : Int) (live : String → Bool) : MgrState :=
  let valid := calcValidProxies s
  if valid.isEmpty then s
  else
    let r := testAndFilterProxies s valid 10 true now (fun l _ => l) live
    saveValidProxyCache r.1 valid r.2 now

/-! ## USVisaChecker state (src/sites/usvisa.py) -/

/-- The proxy-related state of a `USVisaChecker`: the owned `ProxyManager`,
the loaded proxy list, the session-local blacklist set, the consecutive
failure counters, and `max_proxy_failures`. -/
structure Checker where
  mgr : MgrState
  proxies : List String
  blacklisted : List String
  failed : List (String × Nat)
  maxFailures : Nat
deriving DecidableEq

/-- `USVisaChecker._handle_proxy_failure`: increment the consecutive-failure
counter; on reaching `max_proxy_failures`, add the proxy to the durable
blacklist (which invalidates the cache), add it to the session blacklist,
remove it from the in-memory proxy list, and delete the counter. -/
def handleProxyFailure (c : Checker) (e reason stamp : String) : Checker :=
  let cnt := lookupD c.failed e 0 + 1
  let failed1 := setKey c.failed e cnt
  if c.maxFailures ≤ cnt then
    { mgr := (addToBlacklist c.mgr e reason stamp).1,
      proxies := if c.proxies.contains e then c.proxies.erase e else c.proxies,
      blacklisted := insertSet c.blacklisted e,
      failed := eraseKey failed1 e,
      maxFailures := c.maxFailures }
  else { c with failed := failed1 }

/-- Iterated failure reports: `n` consecutive `_handle_proxy_failure` calls
for the same endpoint with no intervening success. -/
def reportFailures (c : Checker) (e reason stamp : String) : Nat → Checker
  | 0 => c
  | n + 1 => handleProxyFailure (reportFailures c e reason stamp n) e reason stamp

/-- The latency bookkeeping of `USVisaChecker._make_request` after a request
completed: a response slower than 2.0 seconds is reported as a proxy failure
(class `SlowResponse`), otherwise the pending failure record of the proxy is
deleted.  The elapsed time is modelled as an exact rational. -/
def processDelay (c : Checker) (e : String) (delay : ℚ) (stamp : String) : Checker :=
  if 2 < delay then handleProxyFailure c e "SlowResponse" stamp
  else { c with failed := eraseKey c.failed e }

/-! ## A model of CPython `urllib.parse.urlparse`

Only the pieces the repository relies on are modelled: netloc extraction and
the `hostname` / `port` / `username` / `password` properties, following
CPython `_hostinfo` / `_userinfo` (splitting the netloc at the last `'@'`,
bracket-aware host parsing, first-`':'` port split).  Integer parsing does
not model Python's underscore digit grouping. -/

/-- Split at the first occurrence of `c`: `some (before, after)`, or `none`
when `c` does not occur.  `before` never contains `c`. -/
def splitFirst (c : Char) : List Char → Option (List Char × List Char)
  | [] => none
  | a :: rest =>
    if a = c then some ([], rest)
    else match splitFirst c rest with
      | none => none
      | some (l, r) => some (a :: l, r)

/-- Split at the last occurrence of `c`: `some (before, after)`; `after`
never contains `c`. -/
def splitLast (c : Char) (l : List Char) : Option (List Char × List Char) :=
  match splitFirst c l.reverse with
  | none => none
  | some (x, y) => some (y.reverse, x.reverse)

/-- ASCII decimal digit test. -/
def digitChar (c : Char) : Bool := 48 ≤ c.toNat && c.toNat ≤ 57

/-- Value of a digit character. -/
def digitVal (c : Char) : Nat := c.toNat - 48

/-- Accumulating decimal parse of an all-digit string. -/
def parseDigitsGo (acc : Nat) : List Char → Option Nat
  | [] => some acc
  | c :: r => if digitChar c then parseDigitsGo (acc * 10 + digitVal c) r else none

/-- Parse a non-empty all-digit string as a natural number. -/
def parseDigits (l : List Char) : Option Nat :=
  if l.isEmpty then none else parseDigitsGo 0 l

/-- The sign-and-digit part of Python `int(s, 10)` on an already stripped
string. -/
def parsePyIntCore : List Char → Option Int
  | [] => none
  | c :: r =>
    if c = '+' then (parseDigits r).map Int.ofNat
    else if c = '-' then (parseDigits r).map (fun n => -(n : Int))
    else (parseDigits (c :: r)).map Int.ofNat

/-- Python `int(s, 10)` restricted to optional surrounding whitespace, an
optional sign, and decimal digits. -/
def parsePyInt (l : List Char) : Option Int :=
  parsePyIntCore (trimList l)

/-- ASCII lower-casing of a character, modelling `str.lower()` on the ASCII
range (the repository's hosts are ASCII). -/
def lowerChar (c : Char) : Char :=
  if 65 ≤ c.toNat ∧ c.toNat ≤ 90 then Char.ofNat (c.toNat + 32) else c

/-- Lower-case a character list. -/
def lowerList (l : List Char) : List Char := l.map lowerChar

/-- The part of a netloc after its last `'@'` (CPython
`netloc.rpartition('@')[2]`). -/
def hostAfterAt (netloc : List Char) : List Char :=
  match splitLast '@' netloc with
  | none => netloc
  | some (_, rest) => rest

/-- CPython `ParseResult._hostinfo` on a netloc: drop the part up to the
last `'@'`, then either bracket-aware parsing (`[...]` host, port after the
bracket's `':'`) or a first-`':'` split; an empty port string means no port. -/
def hostinfoOf (netloc : List Char) : List Char × Option (List Char) :=
  match splitFirst '[' (hostAfterAt netloc) with
  | none =>
    match splitFirst ':' (hostAfterAt netloc) with
    | none => (hostAfterAt netloc, none)
    | some (h, p) => (h, if p.isEmpty then none else some p)
  | some (_, bracketed) =>
    match splitFirst ']' bracketed with
    | none => (bracketed, none)
    | some (h, after) =>
      match splitFirst ':' after with
      | none => (h, none)
      | some (_, p) => (h, if p.isEmpty then none else some p)

/-- CPython `ParseResult.hostname`: `None` when empty, lower-cased otherwise. -/
def hostnameOf (netloc : List Char) : Option (List Char) :=
  if (hostinfoOf netloc).1.isEmpty then none
  else some (lowerList (hostinfoOf netloc).1)

/-- CPython `ParseResult.port`: `int(port, 10)` constrained to 0..65535.
The `ValueError` raised on a malformed or out-of-range port collapses to
`none` because every caller in the repository turns it into a rejection. -/
def portOf (netloc : List Char) : Option Nat :=
  match (hostinfoOf netloc).2 with
  | none => none
  | some p =>
    match parsePyInt p with
    | none => none
    | some v => if 0 ≤ v ∧ v ≤ 65535 then some v.toNat else none

/-- CPython `ParseResult._userinfo`: `some (username, password?)` when the
netloc contains `'@'` (split at the last one; the username is the part of
the userinfo before its first `':'`). -/
def userinfoOf (netloc : List Char) : Option (List Char × Option (List Char)) :=
  match splitLast '@' netloc with
  | none => none
  | some (ui, _) =>
    match splitFirst ':' ui with
    | none => some (ui, none)
    | some (u, p) => some (u, some p)

/-- Characters allowed inside a netloc (everything except the delimiters
`'/'`, `'?'`, `'#'` that terminate it). -/
def netChar (c : Char) : Bool := !(c == '/' || c == '?' || c == '#')

/-- The netloc of a URL body that directly follows `scheme://`: everything
up to the first `'/'`, `'?'` or `'#'`. -/
def netlocOf (afterScheme : List Char) : List Char :=
  afterScheme.takeWhile netChar

/-! ## CanadaVisaChecker._normalize_proxy_url (src/sites/canadavisa.py) -/

/-- The characters of `"http://"`. -/
def httpMark : List Char := "http://".data

/-- The characters of `"https://"`. -/
def httpsMark : List Char := "https://".data

/-- Lines 76-85 of `_normalize_proxy_url`: strip, reject the empty string,
and prepend `http://` when neither scheme marker is present. -/
def proxyWithScheme (raw : List Char) : Option (List Char) :=
  if (trimList raw).isEmpty then none
  else some (if httpMark.isPrefixOf (trimList raw) || httpsMark.isPrefixOf (trimList raw)
             then trimList raw
             else httpMark ++ trimList raw)

/-- The scheme and post-`://` remainder of a string built by
`proxyWithScheme` (it always carries one of the two markers). -/
def urlSchemeRest (p : List Char) : List Char × List Char :=
  if httpsMark.isPrefixOf p then ("https".data, p.drop 8) else ("http".data, p.drop 7)

/-- The IPv4 dotted-quad shape test, `re.match(r"^(\d{1,3}\.){3}\d{1,3}$", host)`. -/
def splitDots : List Char → List (List Char)
  | [] => [[]]
  | c :: r =>
    if c = '.' then [] :: splitDots r
    else match splitDots r with
      | [] => [[c]]
      | g :: gs => (c :: g) :: gs

/-- Whether the host matches the dotted-quad regular expression. -/
def ipv4Shape (host : List Char) : Bool :=
  let parts := splitDots host
  parts.length == 4 &&
    parts.all (fun p => !p.isEmpty && p.length ≤ 3 && p.all digitChar)

/-- The octet range check applied when the shape matches: every octet value
must be at most 255. -/
def octetsOk (host : List Char) : Bool :=
  (splitDots host).all (fun p =>
    match parseDigits p with
    | some v => v ≤ 255
    | none => true)

/-- Fuel-driven big-endian digit rendering (the fuel dominates the number,
so the recursion is structural and kernel-reducible). -/
def natDigitsGo : Nat → Nat → List Char
  | 0, _ => []
  | fuel + 1, n =>
    if n = 0 then [] else natDigitsGo fuel (n / 10) ++ [Char.ofNat (48 + n % 10)]

/-- Decimal rendering of a natural number (the `f"{parsed.port}"`
interpolation). -/
def natDigits (n : Nat) : List Char :=
  if n = 0 then ['0'] else natDigitsGo n n

/-- The canonical host computed inside `_normalize_proxy_url` (exposed for
stating theorems): hostname of the netloc of the scheme-completed input. -/
def canonHostOf (raw : List Char) : Option (List Char) :=
  match proxyWithScheme raw with
  | none => none
  | some p2 => hostnameOf (netlocOf (urlSchemeRest p2).2)

/-- `CanadaVisaChecker._normalize_proxy_url` on character lists: validate
host and port, apply the IPv4 octet check, and rebuild the canonical URL —
`f"{scheme}://{user}:{pass}@{host}:{port}"` when both credential parts are
truthy, `f"{scheme}://{host}:{port}"` otherwise. -/
def normCore (raw : List Char) : Option (List Char) :=
  match proxyWithScheme raw with
  | none => none
  | some p2 =>
    match hostnameOf (netlocOf (urlSchemeRest p2).2) with
    | none => none
    | some host =>
      match portOf (netlocOf (urlSchemeRest p2).2) with
      | none => none
      | some port =>
        if port = 0 then none
        else if ¬(1 ≤ port ∧ port ≤ 65535) then none
        else if ipv4Shape host && !octetsOk host then none
        else
          match userinfoOf (netlocOf (urlSchemeRest p2).2) with
          | some (u, some pw) =>
            if !u.isEmpty && !pw.isEmpty then
              some ((urlSchemeRest p2).1 ++ "://".data ++
                (u ++ ':' :: pw ++ ['@']) ++ host ++ ':' :: natDigits port)
            else
              some ((urlSchemeRest p2).1 ++ "://".data ++ host ++ ':' :: natDigits port)
          | _ =>
            some ((urlSchemeRest p2).1 ++ "://".data ++ host ++ ':' :: natDigits port)

/-- `_normalize_proxy_url` on strings. -/
def normalizeProxyUrl (s : String) : Option String :=
  (normCore s.data).map String.mk

/-! ## USVisaChecker._get_random_proxy (src/sites/usvisa.py)

That method calls `urlparse` on an arbitrary proxy string, so the general
scheme-splitting of CPython `urlsplit` is modelled: a scheme is recognised
only when a `':'` is preceded by a non-empty run of scheme characters whose
first character is an ASCII letter, and a netloc only when the remainder
begins with `"//"`. -/

/-- ASCII letter test (`c.isascii() and c.isalpha()`). -/
def alphaChar (c : Char) : Bool :=
  (65 ≤ c.toNat && c.toNat ≤ 90) || (97 ≤ c.toNat && c.toNat ≤ 122)

/-- CPython `scheme_chars`. -/
def schemeChr (c : Char) : Bool :=
  alphaChar c || digitChar c || c == '+' || c == '-' || c == '.'

/-- Remove a leading `scheme:` when present (CPython `urlsplit`). -/
def dropScheme (l : List Char) : List Char :=
  match splitFirst ':' l with
  | none => l
  | some (s, rest) =>
    if !s.isEmpty && (match s with | c :: _ => alphaChar c | [] => false)
        && s.all schemeChr then rest
    else l

/-- The netloc `urlparse` assigns to an arbitrary URL string. -/
def urlparseNetloc (l : List Char) : List Char :=
  let rest := dropScheme l
  if ['/', '/'].isPrefixOf rest then netlocOf (rest.drop 2) else []

/-- The validity test of `_get_random_proxy`: `parsed.hostname and
parsed.port` must both be truthy (a port `ValueError` is caught by the
surrounding `except Exception`, which has the same observable effect). -/
def urlOkHostPort (p : String) : Bool :=
  let nl := urlparseNetloc p.data
  match hostnameOf nl, portOf nl with
  | some _, some v => v != 0
  | _, _ => false

/-- `USVisaChecker._get_random_proxy`: reload the proxies from the manager,
filter out the session blacklist, pick one via the `random.choice` oracle,
validate it with `urlparse`, and return it (the returned proxy dict is
represented by its URL).  An invalid pick is session-blacklisted. -/
def getRandomProxy (c : Checker) (now : Int) (choice : List String → String) :
    Option String × Checker :=
  let ps := loadValidProxies c.mgr now
  let c1 := { c with proxies := ps }
  if ps.isEmpty then (none, c1)
  else
    let available := ps.filter (fun p => !c1.blacklisted.contains p)
    if available.isEmpty then (none, c1)
    else
      let p := choice available
      if urlOkHostPort p then (some p, c1)
      else (none, { c1 with blacklisted := insertSet c1.blacklisted p })

/-! ## Dictionary and set lemmas -/

theorem lookupKey_eraseKey_self {α : Type} (l : List (String × α)) (k : String) :
    lookupKey (eraseKey l k) k = none := by
  induction l with
  | nil => rfl
  | cons p rest ih =>
    by_cases h : p.1 = k
    · simpa [eraseKey, h] using ih
    · simpa [eraseKey, lookupKey, h] using ih

theorem lookupKey_eraseKey_ne {α : Type} (l : List (String × α)) {k k2 : String}
    (h : k2 ≠ k) : lookupKey (eraseKey l k) k2 = lookupKey l k2 := by
  induction l with
  | nil => rfl
  | cons p rest ih =>
    by_cases hp : p.1 = k
    · have hne : ¬p.1 = k2 := fun e => h (e ▸ hp)
      rw [show eraseKey (p :: rest) k = eraseKey rest k by simp [eraseKey, hp]]
      rw [ih]
      simp [lookupKey, hne]
    · rw [show eraseKey (p :: rest) k = p :: eraseKey rest k by simp [eraseKey, hp]]
      by_cases hp2 : p.1 = k2
      · simp [lookupKey, hp2]
      · simp [lookupKey, hp2]
        exact ih

theorem lookupKey_setKey_self {α : Type} (l : List (String × α)) (k : String) (v : α) :
    lookupKey (setKey l k v) k = some v := by
  simp [setKey, lookupKey]

theorem lookupKey_setKey_ne {α : Type} (l : List (String × α)) {k k2 : String} (v : α)
    (h : k2 ≠ k) : lookupKey (setKey l k v) k2 = lookupKey l k2 := by
  have : k ≠ k2 := fun e => h e.symm
  simp [setKey, lookupKey, this, lookupKey_eraseKey_ne l h]

theorem mem_insertSet_self (l : List String) (x : String) : x ∈ insertSet l x := by
  unfold insertSet
  split
  · next h => exact List.mem_of_elem_eq_true h
  · exact List.mem_cons_self x l

theorem mem_insertSet_of_mem (l : List String) {x y : String} (h : y ∈ l) :
    y ∈ insertSet l x := by
  unfold insertSet
  split
  · exact h
  · exact List.Mem.tail x h

/-! ## Claim C10: get_stats pool_total semantics -/

/-- A pool file with a duplicated proxy line and an indented comment line. -/
def linesC10 : List String := ["1.1.1.1:80", "1.1.1.1:80", "  # note"]

/-- Manager state over `linesC10` with an empty blacklist and no cache. -/
def sC10 : MgrState := ⟨linesC10, [], none, []⟩

/-- C10: `pool_total` counts, with multiplicity, the lines whose stripped
text is non-empty and whose raw text does not start with a `'#'`; on the
file `linesC10` this counts the duplicate and the indented comment (total
3), while the valid count is over the deduplicated pool-minus-blacklist set
(1 of 1 distinct endpoints), so the `success_rate` ratio `valid/pool_total`
(1/3) differs from the fraction of distinct pool endpoints that are valid
(1/1); the two fractions are compared cross-multiplied. -/
theorem claim_C10 :
    (∀ lines : List String, statsPoolTotal lines =
      List.countP (fun l => !(pyStrip l).data.isEmpty && !startsHash l) lines) ∧
    statsPoolTotal linesC10 = 3 ∧
    (poolOf linesC10).length = 1 ∧
    statsValidCount sC10 0 = 1 ∧
    (calcValidProxies sC10).length = 1 ∧
    statsValidCount sC10 0 * (poolOf linesC10).length ≠
      (calcValidProxies sC10).length * statsPoolTotal linesC10 := by
  refine ⟨fun lines => ?_, by decide, by decide, by decide, by decide, by decide⟩
  rw [List.countP_eq_length_filter]
  rfl

/-! ## Claim C2: load_valid_proxies cache policy -/

/-- A stale cache snapshot computed at time 0. -/
def snapC2 : CacheSnap := ⟨0, ["cached:1"], 0, 1⟩

/-- Manager state holding the stale snapshot `snapC2`. -/
def sC2 : MgrState := ⟨["a:1"], [], some snapC2, []⟩

/-- C2 counterexample: at time 1000 the snapshot from time 0 is stale
(age 1000 is at least the 300-second TTL); the claim requires
`load_valid_proxies` to publish a new snapshot with a fresh `computed_at`
before returning, but the function performs no write: the post-state still
holds the snapshot with timestamp 0, not 1000. -/
theorem claim_C2_counterexample :
    ¬((1000 : Int) - snapC2.lastUpdated < cacheTTL) ∧
    (loadValidProxiesSt sC2 1000).1 = calcValidProxies sC2 ∧
    (loadValidProxiesSt sC2 1000).2.cache = some snapC2 ∧
    snapC2.lastUpdated ≠ (1000 : Int) := by decide

/-- C2 (amended): a snapshot younger than five minutes is served unchanged;
otherwise (stale snapshot or no snapshot) the pool-minus-blacklist set is
recomputed synchronously and returned, but no new snapshot is published:
the state, including the cache file, is returned unchanged. -/
theorem claim_C2 (s : MgrState) (now : Int) :
    (loadValidProxiesSt s now).2 = s ∧
    (∀ snap, s.cache = some snap → now - snap.lastUpdated < cacheTTL →
      (loadValidProxiesSt s now).1 = snap.validProxies) ∧
    (∀ snap, s.cache = some snap → ¬(now - snap.lastUpdated < cacheTTL) →
      (loadValidProxiesSt s now).1 = calcValidProxies s) ∧
    (s.cache = none → (loadValidProxiesSt s now).1 = calcValidProxies s) := by
  refine ⟨rfl, ?_, ?_, ?_⟩
  · intro snap hs hfresh
    simp [loadValidProxiesSt, loadValidProxies, hs, hfresh]
  · intro snap hs hstale
    simp [loadValidProxiesSt, loadValidProxies, hs, hstale]
  · intro hs
    simp [loadValidProxiesSt, loadValidProxies, hs]

/-- C2 witness: the stale-snapshot branch applied at `sC2` and time 1000. -/
theorem claim_C2_witness :
    (loadValidProxiesSt sC2 1000).1 = calcValidProxies sC2 :=
  (claim_C2 sC2 1000).2.2.1 snapC2 rfl (by decide)

/-! ## Claim C5: the background updater cycle -/

/-- A manager state whose pool file is empty. -/
def sC5 : MgrState := ⟨[], [], none, []⟩

/-- A manager state with one pool entry and no blacklist. -/
def sC5b : MgrState := ⟨["a:1"], [], none, []⟩

/-- C5 counterexample: when the recomputed valid set is empty, the cycle of
`_background_proxy_updater` only logs a warning and writes nothing — the
claim that every cycle writes a new cache snapshot fails: after the cycle
over the empty pool the cache file still does not exist. -/
theorem claim_C5_counterexample :
    backgroundProxyCycle sC5 7 (fun _ => false) = sC5 ∧ sC5.cache = none := by decide

/-- C5 (amended): a cycle whose recomputed valid set is non-empty probes up
to 10 candidates under the cooldown and always publishes a fresh snapshot
carrying the valid set — for every liveness outcome `live`, including the
one where no probed proxy is live; a cycle whose valid set is empty leaves
the state (and hence the cache) unchanged. -/
theorem claim_C5 (s : MgrState) (now : Int) (live : String → Bool) :
    (calcValidProxies s ≠ [] →
      ∃ snap, (backgroundProxyCycle s now live).cache = some snap ∧
        snap.lastUpdated = now ∧ snap.validProxies = calcValidProxies s) ∧
    (calcValidProxies s = [] → backgroundProxyCycle s now live = s) := by
  constructor
  · intro hne
    have hb : (calcValidProxies s).isEmpty = false := by
      cases h : calcValidProxies s with
      | nil => exact absurd h hne
      | cons a t => rfl
    refine ⟨⟨now, calcValidProxies s,
      ((testAndFilterProxies s (calcValidProxies s) 10 true now (fun l _ => l) live).2).length,
      (calcValidProxies s).length⟩, ?_, rfl, rfl⟩
    simp only [backgroundProxyCycle, hb, Bool.false_eq_true, if_false,
      saveValidProxyCache]
  · intro he
    simp [backgroundProxyCycle, he]

/-- C5 witness: a cycle over a one-proxy pool in which no proxy is found
live still publishes a snapshot stamped with the cycle time. -/
theorem claim_C5_witness :
    ∃ snap, (backgroundProxyCycle sC5b 7 (fun _ => false)).cache = some snap ∧
      snap.lastUpdated = 7 ∧ snap.validProxies = calcValidProxies sC5b :=
  (claim_C5 sC5b 7 (fun _ => false)).1 (by decide)

/-! ## Character-list lemmas about stripping -/

theorem dropWhile_head_false {α : Type} (p : α → Bool) :
    ∀ (l : List α) {c : α} {r : List α}, l.dropWhile p = c :: r → p c = false := by
  intro l
  induction l with
  | nil => intro c r h; cases h
  | cons a t ih =>
    intro c r h
    rw [List.dropWhile_cons] at h
    by_cases ha : p a
    · rw [if_pos ha] at h; exact ih h
    · rw [if_neg ha] at h
      cases h
      exact Bool.eq_false_iff.mpr ha

theorem trimList_head_false {l : List Char} {c : Char} {r : List Char}
    (h : trimList l = c :: r) : wsChar c = false := by
  unfold trimList at h
  have h1 : (l.dropWhile wsChar).reverse.takeWhile wsChar ++
      (l.dropWhile wsChar).reverse.dropWhile wsChar = (l.dropWhile wsChar).reverse :=
    List.takeWhile_append_dropWhile _ _
  have h2 := congrArg List.reverse h1
  rw [List.reverse_append, List.reverse_reverse, h] at h2
  exact dropWhile_head_false wsChar l h2.symm

theorem trimList_cons_ne_nil {c : Char} (r : List Char) (hc : wsChar c = false) :
    trimList (c :: r) ≠ [] := by
  intro hnil
  unfold trimList at hnil
  rw [List.dropWhile_cons, if_neg (by simp [hc])] at hnil
  have h1 : (c :: r).reverse.dropWhile wsChar = [] := by
    have := congrArg List.reverse hnil
    simpa using this
  have h2 := List.dropWhile_eq_nil_iff.mp h1 c (by simp)
  rw [hc] at h2
  cases h2

/-! ## Membership characterisations for the pool and blacklist parsers -/

theorem mem_poolOf {lines : List String} {x : String} :
    x ∈ poolOf lines ↔ (∃ line ∈ lines, pyStrip line = x) ∧ isContentLine x = true := by
  simp only [poolOf, List.mem_dedup, List.mem_filter, List.mem_map]

theorem mem_blacklistIds {lines : List String} {x : String} :
    x ∈ blacklistIds lines ↔ ∃ line ∈ lines, blIdOfLine line = some x := by
  simp only [blacklistIds, List.mem_dedup, List.mem_filterMap]

theorem isContentLine_iff {t : String} :
    isContentLine t = true ↔ t ≠ "" ∧ startsHash t = false := by
  constructor
  · intro h
    simp only [isContentLine, Bool.and_eq_true, Bool.not_eq_true'] at h
    refine ⟨?_, h.2⟩
    intro he
    rw [he] at h
    exact absurd h.1 (by decide)
  · intro ⟨h1, h2⟩
    simp only [isContentLine, Bool.and_eq_true, Bool.not_eq_true']
    refine ⟨?_, h2⟩
    cases hd : t.data with
    | nil => exact absurd (String.ext hd) h1
    | cons a b => simp [List.isEmpty, hd]

theorem blIdOfLine_of_content {line : String}
    (h : isContentLine (pyStrip line) = true) :
    blIdOfLine line = some (pyStrip (untilHash (pyStrip line))) := by
  have hdat : (pyStrip line).data = trimList line.data := rfl
  obtain ⟨hne, hhash⟩ := isContentLine_iff.mp h
  obtain ⟨c, r, hcr⟩ : ∃ c r, (pyStrip line).data = c :: r := by
    cases hd : (pyStrip line).data with
    | nil => exact absurd (String.ext hd) hne
    | cons a b => exact ⟨a, b, rfl⟩
  have hcws : wsChar c = false := trimList_head_false (hdat ▸ hcr)
  have hchash : (c == '#') = false := by
    unfold startsHash at hhash
    rw [hcr] at hhash
    exact hhash
  have hcne : ¬c = '#' := by
    intro he
    rw [he] at hchash
    simp at hchash
  have htake : (untilHash (pyStrip line)).data =
      c :: (r.takeWhile (fun ch => ch != '#')) := by
    show ((pyStrip line).data.takeWhile (fun ch => ch != '#')) = _
    rw [hcr, List.takeWhile_cons, if_pos (by simp [hcne])]
  have hpid : (pyStrip (untilHash (pyStrip line))).data ≠ [] := by
    show trimList (untilHash (pyStrip line)).data ≠ []
    rw [htake]
    exact trimList_cons_ne_nil _ hcws
  unfold blIdOfLine
  rw [if_pos h, if_neg (by simpa [List.isEmpty_iff] using hpid)]

theorem blIdOfLine_eq_some_iff {line : String} {x : String} :
    blIdOfLine line = some x ↔
      isContentLine (pyStrip line) = true ∧ pyStrip (untilHash (pyStrip line)) = x := by
  constructor
  · intro h
    by_cases hc : isContentLine (pyStrip line) = true
    · rw [blIdOfLine_of_content hc] at h
      exact ⟨hc, Option.some.inj h⟩
    · unfold blIdOfLine at h
      rw [if_neg hc] at h
      cases h
  · intro ⟨hc, hx⟩
    rw [blIdOfLine_of_content hc, hx]

/-! ## Claim C3: pool minus blacklist after invalidation -/

/-- C3: immediately after `_invalidate_cache` (no snapshot exists),
`load_valid_proxies` returns exactly the set difference of the pool file
and the blacklist file: membership holds for a proxy `x` iff some pool line
strips to `x` with `x` non-blank and not a comment, and no blacklist line's
recorded identity (its stripped text up to the first `'#'`, re-stripped)
equals `x`. -/
theorem claim_C3 (s : MgrState) (now : Int) (x : String) :
    x ∈ loadValidProxies (invalidateCache s) now ↔
      ((∃ line ∈ s.poolFile, pyStrip line = x) ∧ x ≠ "" ∧ startsHash x = false) ∧
      ¬∃ line ∈ s.blacklistFile, pyStrip line ≠ "" ∧ startsHash (pyStrip line) = false ∧
        pyStrip (untilHash (pyStrip line)) = x := by
  have hload : loadValidProxies (invalidateCache s) now = calcValidProxies s := rfl
  rw [hload]
  unfold calcValidProxies
  rw [List.mem_filter]
  have hcontains : ∀ b : Bool, (!b) = true ↔ b = false := by decide
  rw [hcontains]
  rw [Bool.eq_false_iff]
  constructor
  · intro ⟨hp, hb⟩
    obtain ⟨⟨line, hline, hstrip⟩, hcontent⟩ := mem_poolOf.mp hp
    obtain ⟨hne, hhash⟩ := isContentLine_iff.mp hcontent
    refine ⟨⟨⟨line, hline, hstrip⟩, hne, hhash⟩, ?_⟩
    intro ⟨bl, hbl, hbne, hbhash, hbid⟩
    apply hb
    apply List.elem_eq_true_of_mem
    exact mem_blacklistIds.mpr ⟨bl, hbl,
      blIdOfLine_eq_some_iff.mpr ⟨isContentLine_iff.mpr ⟨hbne, hbhash⟩, hbid⟩⟩
  · intro ⟨⟨hex, hne, hhash⟩, hnb⟩
    refine ⟨mem_poolOf.mpr ⟨hex, isContentLine_iff.mpr ⟨hne, hhash⟩⟩, ?_⟩
    intro hc
    obtain ⟨bl, hbl, hbid⟩ := mem_blacklistIds.mp (List.mem_of_elem_eq_true hc)
    obtain ⟨hbc, hbx⟩ := blIdOfLine_eq_some_iff.mp hbid
    obtain ⟨hbne, hbhash⟩ := isContentLine_iff.mp hbc
    exact hnb ⟨bl, hbl, hbne, hbhash, hbx⟩

/-! ## Claim C7: remove_from_blacklist frame condition -/

/-- A blacklist file with two recorded endpoints, one of which contains the
other's URL as a proper substring. -/
def sC7 : MgrState :=
  ⟨[], ["1.2.3.4:8080  # Timeout - x", "5.6.7.8:1  # ConnErr - y"], none, []⟩

/-- C7 counterexample: `remove_from_blacklist` matches lines by substring
(`proxy_url in line_stripped`), not by recorded identity.  Removing
`1.2.3.4:80` also deletes the entry whose recorded identity is
`1.2.3.4:8080` — an entry whose identity differs from the argument is not
preserved, contradicting the claim. -/
theorem claim_C7_counterexample :
    blIdOfLine "1.2.3.4:8080  # Timeout - x" = some "1.2.3.4:8080" ∧
    ("1.2.3.4:8080" : String) ≠ "1.2.3.4:80" ∧
    (removeFromBlacklist sC7 "1.2.3.4:80").1.blacklistFile =
      ["5.6.7.8:1  # ConnErr - y"] := by decide

/-- C7 (amended): `remove_from_blacklist` rewrites the file omitting exactly
the non-blank, non-comment lines whose stripped text contains the argument
as a substring; every other line (including every entry whose text does not
contain the argument) is preserved unchanged and in order, and the returned
flag reports whether any line was omitted. -/
theorem claim_C7 (s : MgrState) (e : String) :
    List.Sublist (removeFromBlacklist s e).1.blacklistFile s.blacklistFile ∧
    (∀ line, line ∈ (removeFromBlacklist s e).1.blacklistFile ↔
      line ∈ s.blacklistFile ∧
        ¬(isContentLine (pyStrip line) = true ∧
          containsSub e.data (pyStrip line).data = true)) ∧
    ((removeFromBlacklist s e).2 = true ↔
      ∃ line ∈ s.blacklistFile, blRemoveMatch e line = true) := by
  have hmatch : ∀ line, blRemoveMatch e line = true ↔
      (isContentLine (pyStrip line) = true ∧
       containsSub e.data (pyStrip line).data = true) := by
    intro line
    simp [blRemoveMatch, Bool.and_eq_true]
  by_cases hr : s.blacklistFile.any (fun line => blRemoveMatch e line)
  · have hres : (removeFromBlacklist s e).1.blacklistFile =
        s.blacklistFile.filter (fun line => !blRemoveMatch e line) := by
      simp [removeFromBlacklist, hr]
    have hflag : (removeFromBlacklist s e).2 = true := by
      simp [removeFromBlacklist, hr]
    refine ⟨hres ▸ List.filter_sublist s.blacklistFile, ?_, ?_⟩
    · intro line
      rw [hres, List.mem_filter]
      constructor
      · intro ⟨h1, h2⟩
        refine ⟨h1, ?_⟩
        rw [← hmatch]
        simp at h2
        simp [h2]
      · intro ⟨h1, h2⟩
        refine ⟨h1, ?_⟩
        rw [← hmatch] at h2
        simp [Bool.not_eq_true] at h2 ⊢
        exact h2
    · rw [hflag]
      simpa using List.any_eq_true.mp hr
  · have hres : removeFromBlacklist s e = (s, false) := by
      simp [removeFromBlacklist, hr]
    have hnon : ∀ line ∈ s.blacklistFile, blRemoveMatch e line = false := by
      intro line hl
      by_contra hx
      exact hr (List.any_eq_true.mpr ⟨line, hl, by simpa [Bool.not_eq_false] using hx⟩)
    rw [hres]
    refine ⟨List.Sublist.refl _, ?_, ?_⟩
    · intro line
      constructor
      · intro h1
        refine ⟨h1, ?_⟩
        rw [← hmatch]
        simp [hnon line h1]
      · intro ⟨h1, _⟩
        exact h1
    · constructor
      · intro h
        cases h
      · intro ⟨line, hl, hm⟩
        rw [hnon line hl] at hm
        cases hm

/-- C7 witness: the unrelated entry survives the removal. -/
theorem claim_C7_witness :
    "5.6.7.8:1  # ConnErr - y" ∈ (removeFromBlacklist sC7 "1.2.3.4:80").1.blacklistFile :=
  ((claim_C7 sC7 "1.2.3.4:80").2.1 "5.6.7.8:1  # ConnErr - y").mpr (by decide)

/-! ## Claim C4: probe-batch selection -/

theorem selectCooldownGo_spec (lt : List (String × Int)) (now : Int) (maxTest : Nat) :
    ∀ (rest : List String) (acc : List String), acc.length < maxTest →
      selectCooldownGo lt now maxTest acc rest =
        acc.reverse ++ (rest.filter (cooldownOk lt now)).take (maxTest - acc.length) := by
  intro rest
  induction rest with
  | nil => intro acc _; simp [selectCooldownGo]
  | cons p t ih =>
    intro acc hacc
    by_cases hp : cooldownOk lt now p
    · rw [show selectCooldownGo lt now maxTest acc (p :: t) =
          (if maxTest ≤ (p :: acc).length then (p :: acc).reverse
           else selectCooldownGo lt now maxTest (p :: acc) t) by
        simp [selectCooldownGo, hp]]
      by_cases hfull : maxTest ≤ (p :: acc).length
      · rw [if_pos hfull]
        have hmt : maxTest - acc.length = 1 := by
          simp at hfull
          omega
        simp [List.filter_cons, hp, hmt]
      · rw [if_neg hfull]
        have hlt : (p :: acc).length < maxTest := by
          simp at hfull ⊢
          omega
        rw [ih (p :: acc) hlt]
        have hmt : maxTest - acc.length = (maxTest - (p :: acc).length) + 1 := by
          simp at hfull ⊢
          omega
        simp [List.filter_cons, hp, hmt, List.take_succ_cons]
    · rw [show selectCooldownGo lt now maxTest acc (p :: t) =
          selectCooldownGo lt now maxTest acc t by
        simp [selectCooldownGo, hp]]
      rw [ih acc hacc]
      simp [List.filter_cons, hp]

theorem mem_selectCooldown_eligible (lt : List (String × Int)) (now : Int)
    (maxTest : Nat) (proxies : List String) {x : String}
    (hx : x ∈ selectCooldown lt now maxTest proxies) : cooldownOk lt now x = true := by
  suffices h : ∀ (rest acc : List String),
      (∀ y ∈ acc, cooldownOk lt now y = true) →
      x ∈ selectCooldownGo lt now maxTest acc rest → cooldownOk lt now x = true by
    exact h proxies [] (by intro y hy; cases hy) hx
  intro rest
  induction rest with
  | nil =>
    intro acc hacc hmem
    simp [selectCooldownGo] at hmem
    exact hacc x hmem
  | cons p t ih =>
    intro acc hacc hmem
    by_cases hp : cooldownOk lt now p
    · rw [show selectCooldownGo lt now maxTest acc (p :: t) =
          (if maxTest ≤ (p :: acc).length then (p :: acc).reverse
           else selectCooldownGo lt now maxTest (p :: acc) t) by
        simp [selectCooldownGo, hp]] at hmem
      by_cases hfull : maxTest ≤ (p :: acc).length
      · rw [if_pos hfull] at hmem
        simp at hmem
        rcases hmem with h | h
        · exact hacc x h
        · exact h ▸ hp
      · rw [if_neg hfull] at hmem
        refine ih (p :: acc) ?_ hmem
        intro y hy
        rcases List.mem_cons.mp hy with h | h
        · exact h ▸ hp
        · exact hacc y h
    · rw [show selectCooldownGo lt now maxTest acc (p :: t) =
          selectCooldownGo lt now maxTest acc t by
        simp [selectCooldownGo, hp]] at hmem
      exact ih acc hacc hmem

/-- A manager state recording that `a:1` was probed at time 900. -/
def sC4 : MgrState := ⟨[], [], none, [("a:1", 900)]⟩

/-- C4 counterexample: with `max_test = 0` the loop appends the first
eligible candidate before checking the bound, so the selected batch has one
element, exceeding `max_test` — the batch is not limited to at most
`max_test` candidates as claimed. -/
theorem claim_C4_counterexample :
    selectCooldown [] 1000 0 ["a:1"] = ["a:1"] ∧
    ¬((selectCooldown [] 1000 0 ["a:1"]).length ≤ 0) := by decide

/-- C4 (amended): a proxy whose cooldown record was written less than 300
seconds before `now` is never selected; for `max_test ≥ 1` the selection
with `respect_cooldown` equals the eligible candidates in encountered order
truncated at `max_test` (with `max_test = 0` one eligible candidate is still
selected, because the loop appends before checking the bound); without
`respect_cooldown` the batch is the oracle sample of
`min(len(candidates), max_test)` candidates, so — for a sampler that
returns samples of the requested size, as `random.sample` does — it has
exactly `min(max_test, |candidates|)` elements. -/
theorem claim_C4 (s : MgrState) (proxies : List String) (maxTest : Nat) (now : Int)
    (sample : List String → Nat → List String) :
    (∀ p t0, lookupKey s.lastTested p = some t0 → now - t0 < testCooldown →
      p ∉ selectTest s proxies maxTest true now sample) ∧
    (1 ≤ maxTest →
      selectTest s proxies maxTest true now sample =
        (proxies.filter (cooldownOk s.lastTested now)).take maxTest) ∧
    (selectTest s proxies maxTest false now sample =
      sample proxies (min proxies.length maxTest)) ∧
    ((∀ (l : List String) (n : Nat), n ≤ l.length → (sample l n).length = n) →
      (selectTest s proxies maxTest false now sample).length = min maxTest proxies.length) := by
  refine ⟨?_, ?_, rfl, ?_⟩
  · intro p t0 hl hcd hmem
    have helig := mem_selectCooldown_eligible s.lastTested now maxTest proxies hmem
    unfold cooldownOk lookupD at helig
    rw [hl] at helig
    simp [testCooldown] at helig hcd
    omega
  · intro hmt
    unfold selectTest selectCooldown
    rw [if_pos rfl, selectCooldownGo_spec s.lastTested now maxTest proxies [] (by simpa)]
    simp
  · intro hs
    have := hs proxies (min proxies.length maxTest) (Nat.min_le_left _ _)
    unfold selectTest
    rw [if_neg (by simp)]
    rw [this, Nat.min_comm]

/-- C4 witness: at time 1000 the proxy probed at 900 is filtered out and the
remaining eligible candidates are taken in order up to the batch bound. -/
theorem claim_C4_witness :
    selectTest sC4 ["a:1", "b:2", "c:3"] 2 true 1000 (fun l n => l.take n) =
      (List.filter (cooldownOk sC4.lastTested 1000) ["a:1", "b:2", "c:3"]).take 2 :=
  (claim_C4 sC4 ["a:1", "b:2", "c:3"] 2 1000 (fun l n => l.take n)).2.1 (by decide)

/-! ## Claim C6: success resets the failure counter, slow responses count as failures -/

/-- A checker with one loaded proxy, no failures yet, and threshold 2. -/
def cC6 : Checker := ⟨sC5b, ["a:1"], [], [], 2⟩

/-- C6: after a completed request, a non-slow response (elapsed at most 2.0
seconds) deletes the proxy's pending failure record — the consecutive count
returns to 0 and nothing else (manager, proxy list, session blacklist) is
touched, so earlier failures cannot contribute to an eviction; a response
slower than 2.0 seconds does not reset the counter but is handled as a
failure of class `SlowResponse`, incrementing the consecutive count (shown
below the threshold). -/
theorem claim_C6 (c : Checker) (e : String) (delay : ℚ) (stamp : String) :
    (delay ≤ 2 →
      (processDelay c e delay stamp).failed = eraseKey c.failed e ∧
      lookupKey (processDelay c e delay stamp).failed e = none ∧
      (processDelay c e delay stamp).mgr = c.mgr ∧
      (processDelay c e delay stamp).proxies = c.proxies ∧
      (processDelay c e delay stamp).blacklisted = c.blacklisted) ∧
    (2 < delay →
      processDelay c e delay stamp = handleProxyFailure c e "SlowResponse" stamp ∧
      (lookupD c.failed e 0 + 1 < c.maxFailures →
        lookupKey (processDelay c e delay stamp).failed e =
          some (lookupD c.failed e 0 + 1))) := by
  constructor
  · intro hd
    have hif : processDelay c e delay stamp = { c with failed := eraseKey c.failed e } := by
      unfold processDelay
      rw [if_neg (not_lt.mpr hd)]
    rw [hif]
    exact ⟨rfl, lookupKey_eraseKey_self c.failed e, rfl, rfl, rfl⟩
  · intro hd
    have hif : processDelay c e delay stamp = handleProxyFailure c e "SlowResponse" stamp := by
      unfold processDelay
      rw [if_pos hd]
    refine ⟨hif, ?_⟩
    intro hbelow
    rw [hif]
    unfold handleProxyFailure
    rw [if_neg (by omega)]
    exact lookupKey_setKey_self c.failed e _

/-- C6 witness: in `cC6` a fast response leaves no failure record, while a
3-second response leaves a count of 1. -/
theorem claim_C6_witness :
    lookupKey (processDelay cC6 "a:1" 1 "t").failed "a:1" = none ∧
    lookupKey (processDelay cC6 "a:1" 3 "t").failed "a:1" = some 1 :=
  ⟨((claim_C6 cC6 "a:1" 1 "t").1 (by norm_num)).2.1,
   ((claim_C6 cC6 "a:1" 3 "t").2 (by norm_num)).2 (by decide)⟩

/-! ## Claim C9: rejection behaviour of _normalize_proxy_url -/

/-- C9: the four listed inputs are rejected (octet 256, port 0, port 70000,
empty string), and in general the function returns `None` whenever the
parsed host is empty, the port is absent or unparseable/out of the 0..65535
range, or the port is 0 — together: whenever the port is not in 1..65535 or
the host is missing. -/
theorem claim_C9 :
    normalizeProxyUrl "256.1.1.1:80" = none ∧
    normalizeProxyUrl "host:0" = none ∧
    normalizeProxyUrl "host:70000" = none ∧
    normalizeProxyUrl "" = none ∧
    (∀ raw p2, proxyWithScheme raw = some p2 →
      (hostnameOf (netlocOf (urlSchemeRest p2).2) = none ∨
       portOf (netlocOf (urlSchemeRest p2).2) = none ∨
       portOf (netlocOf (urlSchemeRest p2).2) = some 0) →
      normCore raw = none) := by
  refine ⟨by decide, by decide, by decide, by decide, ?_⟩
  intro raw p2 hp hbad
  unfold normCore
  rw [hp]
  rcases hbad with h | h | h
  · simp [h]
  · cases hh : hostnameOf (netlocOf (urlSchemeRest p2).2) with
    | none => simp [hh]
    | some host => simp [hh, h]
  · cases hh : hostnameOf (netlocOf (urlSchemeRest p2).2) with
    | none => simp [hh]
    | some host => simp [hh, h]

/-- C9 witness: a specifier with no port at all is rejected through the
general clause. -/
theorem claim_C9_witness : normCore "noport".data = none :=
  claim_C9.2.2.2.2 "noport".data "http://noport".data (by decide)
    (Or.inr (Or.inl (by decide)))

/-! ## Claim C1: failure-threshold eviction -/

theorem blacklisted_mono_handle (d : Checker) (e e2 r2 st2 : String)
    (he : e ∈ d.blacklisted) : e ∈ (handleProxyFailure d e2 r2 st2).blacklisted := by
  unfold handleProxyFailure
  by_cases h : d.maxFailures ≤ lookupD d.failed e2 0 + 1
  · rw [if_pos h]
    exact mem_insertSet_of_mem _ he
  · rw [if_neg h]
    exact he

theorem blacklisted_mono_process (d : Checker) (e e2 : String) (dl : ℚ) (st2 : String)
    (he : e ∈ d.blacklisted) : e ∈ (processDelay d e2 dl st2).blacklisted := by
  unfold processDelay
  by_cases h : 2 < dl
  · rw [if_pos h]
    exact blacklisted_mono_handle d e e2 "SlowResponse" st2 he
  · rw [if_neg h]
    exact he

theorem getRandomProxy_blacklisted (d : Checker) (e : String) (now2 : Int)
    (choice : List String → String) (he : e ∈ d.blacklisted)
    (hch : ∀ l : List String, l ≠ [] → choice l ∈ l) :
    (getRandomProxy d now2 choice).1 ≠ some e ∧
    e ∈ (getRandomProxy d now2 choice).2.blacklisted := by
  unfold getRandomProxy
  by_cases h1 : (loadValidProxies d.mgr now2).isEmpty
  · simp only [h1, if_true]
    exact ⟨by simp, he⟩
  · rw [if_neg h1]
    by_cases h2 : ((loadValidProxies d.mgr now2).filter
        (fun p => !d.blacklisted.contains p)).isEmpty
    · simp only [h2, if_true]
      exact ⟨by simp, he⟩
    · rw [if_neg h2]
      have hne : (loadValidProxies d.mgr now2).filter
          (fun p => !d.blacklisted.contains p) ≠ [] := by
        intro h0
        rw [h0] at h2
        exact h2 rfl
      have hmem := hch _ hne
      have hnb : choice ((loadValidProxies d.mgr now2).filter
          (fun p => !d.blacklisted.contains p)) ∉ d.blacklisted := by
        have hf := (List.mem_filter.mp hmem).2
        intro hin
        rw [Bool.not_eq_true', ← Bool.not_eq_true] at hf
        exact hf (List.elem_eq_true_of_mem hin)
      have hne2 : choice ((loadValidProxies d.mgr now2).filter
          (fun p => !d.blacklisted.contains p)) ≠ e :=
        fun h => hnb (h ▸ he)
      by_cases h3 : urlOkHostPort (choice ((loadValidProxies d.mgr now2).filter
          (fun p => !d.blacklisted.contains p)))
      · rw [if_pos h3]
        exact ⟨by simpa using hne2, he⟩
      · rw [if_neg h3]
        exact ⟨by simp, mem_insertSet_of_mem _ he⟩

theorem reportFailures_below (c : Checker) (e reason stamp : String)
    (hfresh : lookupKey c.failed e = none) :
    ∀ k, k < c.maxFailures →
      (reportFailures c e reason stamp k).mgr = c.mgr ∧
      (reportFailures c e reason stamp k).proxies = c.proxies ∧
      (reportFailures c e reason stamp k).blacklisted = c.blacklisted ∧
      (reportFailures c e reason stamp k).maxFailures = c.maxFailures ∧
      lookupD (reportFailures c e reason stamp k).failed e 0 = k := by
  intro k
  induction k with
  | zero =>
    intro _
    refine ⟨rfl, rfl, rfl, rfl, ?_⟩
    simp [reportFailures, lookupD, hfresh]
  | succ k ih =>
    intro hk
    obtain ⟨hm, hp, hb, hmf, hcnt⟩ := ih (Nat.lt_of_succ_lt hk)
    have hstep : reportFailures c e reason stamp (k + 1) =
        handleProxyFailure (reportFailures c e reason stamp k) e reason stamp := rfl
    rw [hstep]
    unfold handleProxyFailure
    rw [hcnt, hmf, if_neg (by omega)]
    refine ⟨hm, hp, hb, rfl, ?_⟩
    simp [lookupD, lookupKey_setKey_self]

/-- C1: with threshold `N = max_proxy_failures ≥ 1`, starting from a state
with no pending failure record for `e`, `e` not yet recorded in the durable
blacklist file, and a duplicate-free proxy list, after exactly `N`
consecutive `_handle_proxy_failure` reports for `e`: the blacklist file has
`e`'s entry appended, `e` is removed from the in-memory proxy list, `e`'s
failure counter is deleted, the JSON health cache is invalidated, and `e` is
in the session blacklist; moreover in any checker state whose session
blacklist holds `e`, `_get_random_proxy` never returns `e` (for any
`random.choice` oracle that picks a member) and every modelled operation
preserves `e`'s session-blacklist membership, so every subsequent call
keeps returning something other than `e`. -/
theorem claim_C1 (c : Checker) (e reason stamp : String)
    (hN : 1 ≤ c.maxFailures)
    (hfresh : lookupKey c.failed e = none)
    (hnotbl : e ∉ blacklistIds c.mgr.blacklistFile)
    (hnd : c.proxies.Nodup) :
    (reportFailures c e reason stamp c.maxFailures).mgr.blacklistFile =
      c.mgr.blacklistFile ++ [blacklistLine e reason stamp] ∧
    e ∉ (reportFailures c e reason stamp c.maxFailures).proxies ∧
    lookupKey (reportFailures c e reason stamp c.maxFailures).failed e = none ∧
    (reportFailures c e reason stamp c.maxFailures).mgr.cache = none ∧
    e ∈ (reportFailures c e reason stamp c.maxFailures).blacklisted ∧
    (∀ (d : Checker) (now2 : Int) (choice : List String → String),
      e ∈ d.blacklisted → (∀ l : List String, l ≠ [] → choice l ∈ l) →
      ((getRandomProxy d now2 choice).1 ≠ some e ∧
       e ∈ (getRandomProxy d now2 choice).2.blacklisted ∧
       (∀ e2 r2 st2, e ∈ (handleProxyFailure d e2 r2 st2).blacklisted) ∧
       (∀ e2 st2 (dl : ℚ), e ∈ (processDelay d e2 dl st2).blacklisted))) := by
  obtain ⟨M, hM⟩ : ∃ M, c.maxFailures = M + 1 := ⟨c.maxFailures - 1, by omega⟩
  obtain ⟨hm, hp, hb, hmf, hcnt⟩ :=
    reportFailures_below c e reason stamp hfresh M (by omega)
  have hstep : reportFailures c e reason stamp c.maxFailures =
      handleProxyFailure (reportFailures c e reason stamp M) e reason stamp := by
    rw [hM]; rfl
  have hthr : (reportFailures c e reason stamp M).maxFailures ≤
      lookupD (reportFailures c e reason stamp M).failed e 0 + 1 := by
    rw [hmf, hcnt]; omega
  have hfinal : reportFailures c e reason stamp c.maxFailures =
      { mgr := (addToBlacklist (reportFailures c e reason stamp M).mgr e reason stamp).1,
        proxies := if (reportFailures c e reason stamp M).proxies.contains e
          then (reportFailures c e reason stamp M).proxies.erase e
          else (reportFailures c e reason stamp M).proxies,
        blacklisted := insertSet (reportFailures c e reason stamp M).blacklisted e,
        failed := eraseKey (setKey (reportFailures c e reason stamp M).failed e
          (lookupD (reportFailures c e reason stamp M).failed e 0 + 1)) e,
        maxFailures := (reportFailures c e reason stamp M).maxFailures } := by
    rw [hstep]
    unfold handleProxyFailure
    rw [if_pos hthr]
  have hadd : addToBlacklist c.mgr e reason stamp =
      ({ c.mgr with blacklistFile := c.mgr.blacklistFile ++ [blacklistLine e reason stamp],
                    cache := none }, true) := by
    unfold addToBlacklist
    rw [if_pos (show (!(blacklistIds c.mgr.blacklistFile).contains e) = true by
      cases hcase : (blacklistIds c.mgr.blacklistFile).contains e with
      | false => rfl
      | true => exact absurd (List.mem_of_elem_eq_true hcase) hnotbl)]
  refine ⟨?_, ?_, ?_, ?_, ?_, ?_⟩
  · rw [hfinal, hm, hadd]
  · rw [hfinal]
    simp only [hp]
    by_cases hcont : c.proxies.contains e
    · rw [if_pos hcont]
      exact hnd.not_mem_erase
    · rw [if_neg hcont]
      intro hin
      exact hcont (List.elem_eq_true_of_mem hin)
  · rw [hfinal]
    exact lookupKey_eraseKey_self _ e
  · rw [hfinal, hm, hadd]
  · rw [hfinal]
    exact mem_insertSet_self _ e
  · intro d now2 choice hd hch
    obtain ⟨hno, hkeep⟩ := getRandomProxy_blacklisted d e now2 choice hd hch
    exact ⟨hno, hkeep,
      fun e2 r2 st2 => blacklisted_mono_handle d e e2 r2 st2 hd,
      fun e2 st2 dl => blacklisted_mono_process d e e2 dl st2 hd⟩

/-- The manager state used in the C1 witness: two pool entries, an empty
blacklist file, and a live cache snapshot that must disappear. -/
def mC1 : MgrState := ⟨["e1:80", "p2:80"], [], some snapC2, []⟩

/-- The checker state used in the C1 witness (threshold 1). -/
def cC1 : Checker := ⟨mC1, ["e1:80", "p2:80"], [], [], 1⟩

/-- C1 witness: one failure report on threshold 1 appends the blacklist
entry, deletes the counter, and removes the cache snapshot. -/
theorem claim_C1_witness :
    (reportFailures cC1 "e1:80" "Timeout" "ts" cC1.maxFailures).mgr.blacklistFile =
      cC1.mgr.blacklistFile ++ [blacklistLine "e1:80" "Timeout" "ts"] ∧
    lookupKey (reportFailures cC1 "e1:80" "Timeout" "ts" cC1.maxFailures).failed "e1:80" = none ∧
    (reportFailures cC1 "e1:80" "Timeout" "ts" cC1.maxFailures).mgr.cache = none :=
  ⟨(claim_C1 cC1 "e1:80" "Timeout" "ts" (by decide) rfl (by decide) (by decide)).1,
   (claim_C1 cC1 "e1:80" "Timeout" "ts" (by decide) rfl (by decide) (by decide)).2.2.1,
   (claim_C1 cC1 "e1:80" "Timeout" "ts" (by decide) rfl (by decide) (by decide)).2.2.2.1⟩

/-! ## Claim C8: lemma suite for the idempotence analysis -/

theorem char_toNat_ofNat_lt {n : Nat} (h : n < 55296) : (Char.ofNat n).toNat = n := by
  have hv : n.isValidChar := Or.inl (by omega)
  rw [Char.ofNat, dif_pos hv]
  rfl

theorem splitFirst_eq_some {c : Char} :
    ∀ {l a b : List Char}, splitFirst c l = some (a, b) → l = a ++ c :: b ∧ c ∉ a := by
  intro l
  induction l with
  | nil => intro a b h; cases h
  | cons x rest ih =>
    intro a b h
    simp only [splitFirst] at h
    by_cases hx : x = c
    · rw [if_pos hx] at h
      obtain ⟨rfl, rfl⟩ := Prod.mk.injEq .. ▸ Option.some.inj h
      exact ⟨by simp [hx], List.not_mem_nil c⟩
    · rw [if_neg hx] at h
      cases hs : splitFirst c rest with
      | none => rw [hs] at h; cases h
      | some pr =>
        obtain ⟨l2, r2⟩ := pr
        rw [hs] at h
        obtain ⟨rfl, rfl⟩ := Prod.mk.injEq .. ▸ Option.some.inj h
        obtain ⟨hrest, hnm⟩ := ih hs
        refine ⟨by rw [hrest]; rfl, ?_⟩
        intro hm
        rcases List.mem_cons.mp hm with h1 | h1
        · exact hx h1.symm
        · exact hnm h1

theorem splitFirst_eq_none {c : Char} :
    ∀ {l : List Char}, splitFirst c l = none → c ∉ l := by
  intro l
  induction l with
  | nil => intro _ h; cases h
  | cons x rest ih =>
    intro h hm
    simp only [splitFirst] at h
    by_cases hx : x = c
    · rw [if_pos hx] at h; cases h
    · rw [if_neg hx] at h
      cases hs : splitFirst c rest with
      | none =>
        rcases List.mem_cons.mp hm with h1 | h1
        · exact hx h1.symm
        · exact ih hs h1
      | some pr => obtain ⟨l2, r2⟩ := pr; rw [hs] at h; cases h

theorem splitFirst_none_of {c : Char} :
    ∀ {l : List Char}, c ∉ l → splitFirst c l = none := by
  intro l
  induction l with
  | nil => intro _; rfl
  | cons x rest ih =>
    intro h
    have hx : ¬x = c := fun e => h (e ▸ List.mem_cons_self x rest)
    have hr : c ∉ rest := fun hm => h (List.Mem.tail x hm)
    simp only [splitFirst, if_neg hx, ih hr]

theorem splitFirst_append (c : Char) :
    ∀ (a b : List Char), c ∉ a → splitFirst c (a ++ c :: b) = some (a, b) := by
  intro a
  induction a with
  | nil => intro b _; simp [splitFirst]
  | cons x t ih =>
    intro b h
    have hx : ¬x = c := fun e => h (e ▸ List.mem_cons_self x t)
    have ht : c ∉ t := fun hm => h (List.Mem.tail x hm)
    show splitFirst c (x :: (t ++ c :: b)) = some (x :: t, b)
    simp only [splitFirst, if_neg hx]
    rw [ih b ht]

theorem splitLast_eq_some {c : Char} {l a b : List Char}
    (h : splitLast c l = some (a, b)) : l = a ++ c :: b ∧ c ∉ b := by
  unfold splitLast at h
  cases hs : splitFirst c l.reverse with
  | none => rw [hs] at h; cases h
  | some pr =>
    obtain ⟨x, y⟩ := pr
    rw [hs] at h
    obtain ⟨rfl, rfl⟩ := Prod.mk.injEq .. ▸ Option.some.inj h
    obtain ⟨hrev, hnm⟩ := splitFirst_eq_some hs
    constructor
    · have := congrArg List.reverse hrev
      rw [List.reverse_reverse] at this
      rw [this]
      simp
    · intro hm
      exact hnm (List.mem_reverse.mp hm)

theorem splitLast_none_of {c : Char} {l : List Char} (h : c ∉ l) :
    splitLast c l = none := by
  unfold splitLast
  rw [splitFirst_none_of (fun hm => h (List.mem_reverse.mp hm))]

theorem splitLast_append (c : Char) (a b : List Char) (hb : c ∉ b) :
    splitLast c (a ++ c :: b) = some (a, b) := by
  unfold splitLast
  have hrev : (a ++ c :: b).reverse = b.reverse ++ c :: a.reverse := by simp
  rw [hrev, splitFirst_append c b.reverse a.reverse
    (fun hm => hb (List.mem_reverse.mp hm))]
  simp

theorem takeWhile_all {p : Char → Bool} :
    ∀ {l : List Char}, (∀ x ∈ l, p x = true) → l.takeWhile p = l := by
  intro l
  induction l with
  | nil => intro _; rfl
  | cons x t ih =>
    intro h
    rw [List.takeWhile_cons, if_pos (h x (List.mem_cons_self x t)),
      ih (fun y hy => h y (List.Mem.tail x hy))]

theorem dropWhile_all_false {p : Char → Bool} :
    ∀ {l : List Char}, (∀ x ∈ l, p x = false) → l.dropWhile p = l := by
  intro l
  induction l with
  | nil => intro _; rfl
  | cons x t _ =>
    intro h
    rw [List.dropWhile_cons, if_neg (by simp [h x (List.mem_cons_self x t)])]

theorem trimList_eq_self {l : List Char} {c d : Char}
    (h1 : l.head? = some c) (hc : wsChar c = false)
    (h2 : l.getLast? = some d) (hd : wsChar d = false) : trimList l = l := by
  obtain ⟨t, rfl⟩ := List.head?_eq_some_iff.mp h1
  obtain ⟨ys, hys⟩ := List.getLast?_eq_some_iff.mp h2
  unfold trimList
  rw [List.dropWhile_cons, if_neg (by simp [hc])]
  have hrev : (c :: t).reverse = d :: ys.reverse := by
    rw [hys]; simp
  rw [hrev, List.dropWhile_cons, if_neg (by simp [hd]), ← hrev,
    List.reverse_reverse]

theorem lowerChar_cases (c : Char) :
    lowerChar c = c ∨ (97 ≤ (lowerChar c).toNat ∧ (lowerChar c).toNat ≤ 122) := by
  unfold lowerChar
  split
  · next h =>
    right
    rw [char_toNat_ofNat_lt (by omega)]
    omega
  · left; rfl

theorem lowerChar_eq_self_of_not_upper {c : Char}
    (h : ¬(65 ≤ c.toNat ∧ c.toNat ≤ 90)) : lowerChar c = c := by
  unfold lowerChar
  rw [if_neg h]

theorem lowerChar_idem (c : Char) : lowerChar (lowerChar c) = lowerChar c := by
  rcases lowerChar_cases c with h | h
  · rw [h]; exact h
  · exact lowerChar_eq_self_of_not_upper (by omega)

theorem lowerChar_eq_special {c s : Char} (hs : s.toNat < 97 ∨ 122 < s.toNat)
    (h : lowerChar c = s) : c = s := by
  rcases lowerChar_cases c with h2 | h2
  · exact h2.symm.trans h
  · rw [h] at h2
    omega

theorem digitChar_toNat {c : Char} (h : digitChar c = true) :
    48 ≤ c.toNat ∧ c.toNat ≤ 57 := by
  simpa [digitChar] using h

theorem digitChar_ne {c : Char} (h : digitChar c = true) :
    c ≠ ':' ∧ c ≠ '@' ∧ c ≠ '[' ∧ c ≠ '/' ∧ c ≠ '?' ∧ c ≠ '#' ∧
    c ≠ '+' ∧ c ≠ '-' ∧ wsChar c = false := by
  have hb := digitChar_toNat h
  refine ⟨?_, ?_, ?_, ?_, ?_, ?_, ?_, ?_, ?_⟩
  · intro he; subst he; exact absurd hb (by decide)
  · intro he; subst he; exact absurd hb (by decide)
  · intro he; subst he; exact absurd hb (by decide)
  · intro he; subst he; exact absurd hb (by decide)
  · intro he; subst he; exact absurd hb (by decide)
  · intro he; subst he; exact absurd hb (by decide)
  · intro he; subst he; exact absurd hb (by decide)
  · intro he; subst he; exact absurd hb (by decide)
  · cases hw : wsChar c with
    | false => rfl
    | true =>
      have hws : c = ' ' ∨ c = '\t' ∨ c = '\r' ∨ c = '\n' := by
        have := hw
        unfold wsChar Char.isWhitespace at this
        simpa [or_assoc] using this
      rcases hws with he | he | he | he <;>
        (rw [he] at hb; exact absurd hb (by decide))

theorem digitChar_ofNat {r : Nat} (h : r < 10) :
    digitChar (Char.ofNat (48 + r)) = true ∧ digitVal (Char.ofNat (48 + r)) = r := by
  have ht : (Char.ofNat (48 + r)).toNat = 48 + r := char_toNat_ofNat_lt (by omega)
  constructor
  · simp only [digitChar, ht]
    simp
    omega
  · simp [digitVal, ht]

theorem natDigitsGo_zero (fuel : Nat) : natDigitsGo fuel 0 = [] := by
  cases fuel <;> simp [natDigitsGo]

theorem natDigitsGo_all_digit :
    ∀ (fuel n : Nat), ∀ c ∈ natDigitsGo fuel n, digitChar c = true := by
  intro fuel
  induction fuel with
  | zero => intro n c hc; cases hc
  | succ fuel ih =>
    intro n c hc
    by_cases hn : n = 0
    · rw [hn, natDigitsGo_zero] at hc; cases hc
    · rw [show natDigitsGo (fuel + 1) n =
        natDigitsGo fuel (n / 10) ++ [Char.ofNat (48 + n % 10)] by
          simp [natDigitsGo, hn]] at hc
      rcases List.mem_append.mp hc with h1 | h1
      · exact ih (n / 10) c h1
      · rw [List.mem_singleton.mp h1]
        exact (digitChar_ofNat (Nat.mod_lt n (by omega))).1

theorem natDigitsGo_foldl :
    ∀ (fuel n acc : Nat), 0 < n → n ≤ fuel →
      (natDigitsGo fuel n).foldl (fun a c => a * 10 + digitVal c) acc =
        acc * 10 ^ (natDigitsGo fuel n).length + n := by
  intro fuel
  induction fuel with
  | zero => intro n acc h1 h2; omega
  | succ fuel ih =>
    intro n acc h1 h2
    have hn : n ≠ 0 := by omega
    have heq : natDigitsGo (fuel + 1) n =
        natDigitsGo fuel (n / 10) ++ [Char.ofNat (48 + n % 10)] := by
      simp [natDigitsGo, hn]
    have hdv : digitVal (Char.ofNat (48 + n % 10)) = n % 10 :=
      (digitChar_ofNat (Nat.mod_lt n (by omega))).2
    rw [heq, List.foldl_append]
    simp only [List.foldl_cons, List.foldl_nil, hdv, List.length_append,
      List.length_singleton]
    by_cases hq : n / 10 = 0
    · rw [hq, natDigitsGo_zero]
      simp only [List.foldl_nil, List.length_nil]
      have : n < 10 := by omega
      simp [pow_succ]
      omega
    · have hstep := ih (n / 10) acc (by omega) (by omega)
      rw [hstep]
      rw [pow_succ]
      have hmod := Nat.div_add_mod n 10
      set K := 10 ^ (natDigitsGo fuel (n / 10)).length
      ring_nf
      omega

theorem parseDigitsGo_all :
    ∀ {l : List Char}, (∀ c ∈ l, digitChar c = true) → ∀ acc,
      parseDigitsGo acc l = some (l.foldl (fun a c => a * 10 + digitVal c) acc) := by
  intro l
  induction l with
  | nil => intro _ acc; rfl
  | cons x t ih =>
    intro h acc
    rw [show parseDigitsGo acc (x :: t) =
      parseDigitsGo (acc * 10 + digitVal x) t by
        simp [parseDigitsGo, h x (List.mem_cons_self x t)]]
    rw [ih (fun c hc => h c (List.Mem.tail x hc)) (acc * 10 + digitVal x)]
    rfl

theorem natDigits_spec {n : Nat} (h : 0 < n) :
    natDigits n ≠ [] ∧ (∀ c ∈ natDigits n, digitChar c = true) ∧
      parseDigits (natDigits n) = some n := by
  have hne : natDigits n ≠ [] := by
    unfold natDigits
    rw [if_neg (by omega)]
    obtain ⟨f, hf⟩ : ∃ f, n = f + 1 := ⟨n - 1, by omega⟩
    rw [hf]
    rw [show natDigitsGo (f + 1) (f + 1) =
      natDigitsGo f ((f + 1) / 10) ++ [Char.ofNat (48 + (f + 1) % 10)] by
        simp [natDigitsGo]]
    simp
  have hdig : ∀ c ∈ natDigits n, digitChar c = true := by
    intro c hc
    unfold natDigits at hc
    rw [if_neg (by omega)] at hc
    exact natDigitsGo_all_digit n n c hc
  refine ⟨hne, hdig, ?_⟩
  unfold parseDigits
  rw [if_neg (by simpa [List.isEmpty_iff] using hne)]
  rw [parseDigitsGo_all hdig 0]
  unfold natDigits
  rw [if_neg (by omega)]
  rw [natDigitsGo_foldl n n 0 h (Nat.le_refl n)]
  simp

theorem trimList_digits {l : List Char} (h : ∀ c ∈ l, digitChar c = true) :
    trimList l = l := by
  unfold trimList
  rw [dropWhile_all_false (fun x hx => (digitChar_ne (h x hx)).2.2.2.2.2.2.2.2)]
  rw [dropWhile_all_false (fun x hx =>
    (digitChar_ne (h x (List.mem_reverse.mp hx))).2.2.2.2.2.2.2.2)]
  exact List.reverse_reverse l

theorem parsePyInt_natDigits {n : Nat} (h1 : 0 < n) :
    parsePyInt (natDigits n) = some (Int.ofNat n) := by
  obtain ⟨hne, hdig, hparse⟩ := natDigits_spec h1
  unfold parsePyInt
  rw [trimList_digits hdig]
  obtain ⟨c, r, hcr⟩ : ∃ c r, natDigits n = c :: r := by
    cases hd : natDigits n with
    | nil => exact absurd hd hne
    | cons a b => exact ⟨a, b, rfl⟩
  rw [hcr]
  have hc := digitChar_ne (hdig c (hcr ▸ List.mem_cons_self c r))
  show (if c = '+' then (parseDigits r).map Int.ofNat
    else if c = '-' then (parseDigits r).map (fun n => -(n : Int))
    else (parseDigits (c :: r)).map Int.ofNat) = some (Int.ofNat n)
  rw [if_neg hc.2.2.2.2.2.2.1, if_neg hc.2.2.2.2.2.2.2.1]
  rw [← hcr, hparse]
  rfl

theorem splitLast_eq_none {c : Char} {l : List Char} (h : splitLast c l = none) :
    c ∉ l := by
  unfold splitLast at h
  cases hs : splitFirst c l.reverse with
  | none =>
    intro hm
    exact splitFirst_eq_none hs (List.mem_reverse.mpr hm)
  | some pr => obtain ⟨a2, b2⟩ := pr; rw [hs] at h; cases h

theorem isPrefixOf_append_self : ∀ (a b : List Char), a.isPrefixOf (a ++ b) = true := by
  intro a b
  induction a with
  | nil => simp [List.isPrefixOf]
  | cons x t ih => simp [List.isPrefixOf, ih]

theorem hostAfterAt_facts (nl : List Char) :
    (∀ c ∈ hostAfterAt nl, c ∈ nl) ∧ '@' ∉ hostAfterAt nl := by
  unfold hostAfterAt
  cases hs : splitLast '@' nl with
  | none => exact ⟨fun c h => h, splitLast_eq_none hs⟩
  | some pr =>
    obtain ⟨a2, b2⟩ := pr
    obtain ⟨heq, hnm⟩ := splitLast_eq_some hs
    refine ⟨fun c h => ?_, hnm⟩
    rw [heq]
    exact List.mem_append_right a2 (List.Mem.tail '@' h)

theorem hostinfo_fst_in_hostAfterAt (nl : List Char) :
    ∀ c ∈ (hostinfoOf nl).1, c ∈ hostAfterAt nl := by
  intro c hc
  unfold hostinfoOf at hc
  cases hbr : splitFirst '[' (hostAfterAt nl) with
  | none =>
    simp only [hbr] at hc
    cases hcl : splitFirst ':' (hostAfterAt nl) with
    | none => simp only [hcl] at hc; exact hc
    | some pr =>
      obtain ⟨h2, p2⟩ := pr
      simp only [hcl] at hc
      obtain ⟨heq, _⟩ := splitFirst_eq_some hcl
      rw [heq]
      exact List.mem_append_left _ hc
  | some pr =>
    obtain ⟨pre, bracketed⟩ := pr
    simp only [hbr] at hc
    obtain ⟨heq, _⟩ := splitFirst_eq_some hbr
    have hsubbr : ∀ d ∈ bracketed, d ∈ hostAfterAt nl := by
      intro d hd
      rw [heq]
      exact List.mem_append_right pre (List.Mem.tail '[' hd)
    cases hcl : splitFirst ']' bracketed with
    | none => simp only [hcl] at hc; exact hsubbr c hc
    | some pr2 =>
      obtain ⟨h2, after⟩ := pr2
      simp only [hcl] at hc
      obtain ⟨heq2, _⟩ := splitFirst_eq_some hcl
      cases hcl2 : splitFirst ':' after with
      | none =>
        simp only [hcl2] at hc
        exact hsubbr c (heq2 ▸ List.mem_append_left _ hc)
      | some pr3 =>
        obtain ⟨x2, p2⟩ := pr3
        simp only [hcl2] at hc
        exact hsubbr c (heq2 ▸ List.mem_append_left _ hc)

theorem hostinfo_fst_subset (nl : List Char) :
    ∀ c ∈ (hostinfoOf nl).1, c ∈ nl :=
  fun c hc => (hostAfterAt_facts nl).1 c (hostinfo_fst_in_hostAfterAt nl c hc)

theorem hostinfo_fst_no_at (nl : List Char) : '@' ∉ (hostinfoOf nl).1 :=
  fun hm => (hostAfterAt_facts nl).2 (hostinfo_fst_in_hostAfterAt nl '@' hm)

theorem userinfo_facts {nl u pw : List Char}
    (h : userinfoOf nl = some (u, some pw)) :
    (∀ c ∈ u, c ∈ nl) ∧ (∀ c ∈ pw, c ∈ nl) ∧ ':' ∉ u := by
  unfold userinfoOf at h
  cases hs : splitLast '@' nl with
  | none => rw [hs] at h; cases h
  | some pr =>
    obtain ⟨ui, rest2⟩ := pr
    simp only [hs] at h
    obtain ⟨heq, _⟩ := splitLast_eq_some hs
    have huisub : ∀ c ∈ ui, c ∈ nl := by
      intro c hc
      rw [heq]
      exact List.mem_append_left _ hc
    cases hcl : splitFirst ':' ui with
    | none => rw [hcl] at h; cases h
    | some pr2 =>
      obtain ⟨u2, pw2⟩ := pr2
      simp only [hcl] at h
      obtain ⟨rfl, hpw⟩ := Prod.mk.injEq .. ▸ Option.some.inj h
      obtain rfl := Option.some.inj hpw
      obtain ⟨heq2, hnc⟩ := splitFirst_eq_some hcl
      refine ⟨fun c hc => huisub c (heq2 ▸ List.mem_append_left _ hc),
        fun c hc => huisub c (heq2 ▸ List.mem_append_right _ (List.Mem.tail ':' hc)),
        hnc⟩

theorem portOf_le {nl : List Char} {port : Nat} (h : portOf nl = some port) :
    port ≤ 65535 := by
  unfold portOf at h
  cases h2 : (hostinfoOf nl).2 with
  | none => rw [h2] at h; cases h
  | some p =>
    simp only [h2] at h
    cases h3 : parsePyInt p with
    | none => rw [h3] at h; cases h
    | some v =>
      simp only [h3] at h
      by_cases h4 : 0 ≤ v ∧ v ≤ 65535
      · rw [if_pos h4] at h
        obtain rfl := Option.some.inj h
        omega
      · rw [if_neg h4] at h; cases h

theorem digit_netChar {c : Char} (h : digitChar c = true) : netChar c = true := by
  have hd := digitChar_ne h
  simp only [netChar, Bool.not_eq_true', Bool.or_eq_false_iff, beq_eq_false_iff_ne]
  exact ⟨⟨hd.2.2.2.1, hd.2.2.2.2.1⟩, hd.2.2.2.2.2.1⟩

theorem netChar_lower {c : Char} (h : netChar c = true) :
    netChar (lowerChar c) = true := by
  simp only [netChar, Bool.not_eq_true', Bool.or_eq_false_iff,
    beq_eq_false_iff_ne] at h ⊢
  refine ⟨⟨?_, ?_⟩, ?_⟩
  · intro he; exact h.1.1 (lowerChar_eq_special (by decide) he)
  · intro he; exact h.1.2 (lowerChar_eq_special (by decide) he)
  · intro he; exact h.2 (lowerChar_eq_special (by decide) he)

theorem lower_ne_special {c s : Char} (hs : s.toNat < 97 ∨ 122 < s.toNat)
    (h : c ≠ s) : lowerChar c ≠ s :=
  fun he => h (lowerChar_eq_special hs he)

/-- Re-parsing the credential-free netloc `host ++ ':' :: digits`. -/
theorem reparse_no_creds {host digits : List Char}
    (hat : '@' ∉ host) (hbr : '[' ∉ host) (hcol : ':' ∉ host)
    (hdig : ∀ c ∈ digits, digitChar c = true) (hdne : digits ≠ []) :
    hostinfoOf (host ++ ':' :: digits) = (host, some digits) ∧
    userinfoOf (host ++ ':' :: digits) = none := by
  have hnoat : '@' ∉ host ++ ':' :: digits := by
    intro hm
    rcases List.mem_append.mp hm with h1 | h1
    · exact hat h1
    · rcases List.mem_cons.mp h1 with h2 | h2
      · cases h2
      · exact (digitChar_ne (hdig _ h2)).2.1 rfl
  have hnobr : '[' ∉ host ++ ':' :: digits := by
    intro hm
    rcases List.mem_append.mp hm with h1 | h1
    · exact hbr h1
    · rcases List.mem_cons.mp h1 with h2 | h2
      · cases h2
      · exact (digitChar_ne (hdig _ h2)).2.2.1 rfl
  have hafter : hostAfterAt (host ++ ':' :: digits) = host ++ ':' :: digits := by
    unfold hostAfterAt
    rw [splitLast_none_of hnoat]
  have hdieb : digits.isEmpty = false := by
    cases digits with
    | nil => exact absurd rfl hdne
    | cons a b => rfl
  constructor
  · unfold hostinfoOf
    rw [hafter]
    simp only [splitFirst_none_of hnobr, splitFirst_append ':' host digits hcol,
      hdieb, Bool.false_eq_true, if_false]
  · unfold userinfoOf
    rw [splitLast_none_of hnoat]

/-- Re-parsing the netloc `u ++ ':' :: pw ++ '@' :: host ++ ':' :: digits`
carrying credentials. -/
theorem reparse_creds {u pw host digits : List Char}
    (hu : ':' ∉ u)
    (hat : '@' ∉ host) (hbr : '[' ∉ host) (hcol : ':' ∉ host)
    (hdig : ∀ c ∈ digits, digitChar c = true) (hdne : digits ≠ []) :
    hostinfoOf ((u ++ ':' :: pw ++ ['@']) ++ (host ++ ':' :: digits)) =
      (host, some digits) ∧
    userinfoOf ((u ++ ':' :: pw ++ ['@']) ++ (host ++ ':' :: digits)) =
      some (u, some pw) := by
  have hnoat : '@' ∉ host ++ ':' :: digits := by
    intro hm
    rcases List.mem_append.mp hm with h1 | h1
    · exact hat h1
    · rcases List.mem_cons.mp h1 with h2 | h2
      · cases h2
      · exact (digitChar_ne (hdig _ h2)).2.1 rfl
  have hnobr : '[' ∉ host ++ ':' :: digits := by
    intro hm
    rcases List.mem_append.mp hm with h1 | h1
    · exact hbr h1
    · rcases List.mem_cons.mp h1 with h2 | h2
      · cases h2
      · exact (digitChar_ne (hdig _ h2)).2.2.1 rfl
  have hshape : (u ++ ':' :: pw ++ ['@']) ++ (host ++ ':' :: digits) =
      (u ++ ':' :: pw) ++ '@' :: (host ++ ':' :: digits) := by
    simp
  have hsplit : splitLast '@' ((u ++ ':' :: pw ++ ['@']) ++ (host ++ ':' :: digits)) =
      some (u ++ ':' :: pw, host ++ ':' :: digits) := by
    rw [hshape]
    exact splitLast_append '@' _ _ hnoat
  have hafter : hostAfterAt ((u ++ ':' :: pw ++ ['@']) ++ (host ++ ':' :: digits)) =
      host ++ ':' :: digits := by
    unfold hostAfterAt
    rw [hsplit]
  have hdieb : digits.isEmpty = false := by
    cases digits with
    | nil => exact absurd rfl hdne
    | cons a b => rfl
  constructor
  · unfold hostinfoOf
    rw [hafter]
    simp only [splitFirst_none_of hnobr, splitFirst_append ':' host digits hcol,
      hdieb, Bool.false_eq_true, if_false]
  · unfold userinfoOf
    simp only [hsplit, splitFirst_append ':' u pw hu]

/-- The reassembled URL re-parses to itself when the canonical host contains
neither `':'` nor `'['`. -/
theorem normCore_reconstruct
    (scheme creds host : List Char) (port : Nat)
    (hsch : scheme = "http".data ∨ scheme = "https".data)
    (hcr : creds = [] ∨ ∃ u pw, u ≠ [] ∧ pw ≠ [] ∧ ':' ∉ u ∧
      creds = u ++ ':' :: pw ++ ['@'])
    (hcrnet : ∀ c ∈ creds, netChar c = true)
    (hhostne : host ≠ [])
    (hhostnet : ∀ c ∈ host, netChar c = true)
    (hhostat : '@' ∉ host)
    (hlower : lowerList host = host)
    (hcol : ':' ∉ host) (hbrk : '[' ∉ host)
    (hipv : (ipv4Shape host && !octetsOk host) = false)
    (hport1 : 1 ≤ port) (hport2 : port ≤ 65535) :
    normCore (scheme ++ "://".data ++ creds ++ host ++ ':' :: natDigits port) =
      some (scheme ++ "://".data ++ creds ++ host ++ ':' :: natDigits port) := by
  have hdpos : 0 < port := by omega
  obtain ⟨hdne, hdig, hparse⟩ := natDigits_spec hdpos
  have hdws : wsChar ((natDigits port).getLast hdne) = false :=
    (digitChar_ne (hdig _ (List.getLast_mem hdne))).2.2.2.2.2.2.2.2
  have hdlast : (natDigits port).getLast? = some ((natDigits port).getLast hdne) :=
    List.getLast?_eq_getLast _ hdne
  have hhostie : host.isEmpty = false := by
    cases host with
    | nil => exact absurd rfl hhostne
    | cons a b => rfl
  have hMnet : ∀ c ∈ creds ++ host ++ ':' :: natDigits port, netChar c = true := by
    intro c hc
    rcases List.mem_append.mp hc with h1 | h1
    · rcases List.mem_append.mp h1 with h2 | h2
      · exact hcrnet c h2
      · exact hhostnet c h2
    · rcases List.mem_cons.mp h1 with h3 | h3
      · rw [h3]; decide
      · exact digit_netChar (hdig c h3)
  have hinfo : hostinfoOf (creds ++ host ++ ':' :: natDigits port) =
      (host, some (natDigits port)) ∧
      ((userinfoOf (creds ++ host ++ ':' :: natDigits port) = none ∧ creds = []) ∨
       ∃ u pw, u ≠ [] ∧ pw ≠ [] ∧
         userinfoOf (creds ++ host ++ ':' :: natDigits port) = some (u, some pw) ∧
         creds = u ++ ':' :: pw ++ ['@']) := by
    rcases hcr with hcred | ⟨u, pw, hune, hpwne, hucol, hcred⟩
    · rw [hcred, List.nil_append]
      obtain ⟨h1, h2⟩ := reparse_no_creds hhostat hbrk hcol hdig hdne
      exact ⟨h1, Or.inl ⟨h2, rfl⟩⟩
    · rw [hcred, List.append_assoc (u ++ ':' :: pw ++ ['@']) host (':' :: natDigits port)]
      obtain ⟨h1, h2⟩ := reparse_creds hucol hhostat hbrk hcol hdig hdne
      exact ⟨h1, Or.inr ⟨u, pw, hune, hpwne, h2, rfl⟩⟩
  have hhost2 : hostnameOf (creds ++ host ++ ':' :: natDigits port) = some host := by
    unfold hostnameOf
    simp only [hinfo.1, hhostie, Bool.false_eq_true, if_false, hlower]
  have hport3 : portOf (creds ++ host ++ ':' :: natDigits port) = some port := by
    unfold portOf
    simp only [hinfo.1, parsePyInt_natDigits hdpos]
    rw [if_pos ⟨by simp [Int.ofNat_eq_natCast], by
      rw [Int.ofNat_eq_natCast]; exact_mod_cast hport2⟩]
    simp
  have hnlM : netlocOf (creds ++ host ++ ':' :: natDigits port) =
      creds ++ host ++ ':' :: natDigits port := takeWhile_all hMnet
  have hfacts :
      proxyWithScheme (scheme ++ "://".data ++ creds ++ host ++ ':' :: natDigits port) =
        some (scheme ++ "://".data ++ creds ++ host ++ ':' :: natDigits port) ∧
      urlSchemeRest (scheme ++ "://".data ++ creds ++ host ++ ':' :: natDigits port) =
        (scheme, creds ++ host ++ ':' :: natDigits port) := by
    rcases hsch with rfl | rfl
    · rw [show "http".data ++ "://".data ++ creds ++ host ++ ':' :: natDigits port =
        httpMark ++ (creds ++ host ++ ':' :: natDigits port) from rfl]
      have hlast2 : (httpMark ++ (creds ++ host ++ ':' :: natDigits port)).getLast? =
          some ((natDigits port).getLast hdne) := by
        rw [show httpMark ++ (creds ++ host ++ ':' :: natDigits port) =
          (httpMark ++ creds ++ host ++ [':']) ++ natDigits port by simp]
        rw [List.getLast?_append, hdlast]
        rfl
      have htrim := trimList_eq_self
        (show (httpMark ++ (creds ++ host ++ ':' :: natDigits port)).head? = some 'h'
          from rfl) (by decide) hlast2 hdws
      constructor
      · unfold proxyWithScheme
        rw [htrim]
        rw [if_neg (by
          rw [show (httpMark ++ (creds ++ host ++ ':' :: natDigits port)).isEmpty = false
            from rfl]
          exact Bool.false_ne_true)]
        rw [if_pos (by rw [isPrefixOf_append_self]; rfl)]
      · unfold urlSchemeRest
        rw [if_neg (by
          rw [show httpsMark.isPrefixOf
            (httpMark ++ (creds ++ host ++ ':' :: natDigits port)) = false from rfl]
          exact Bool.false_ne_true)]
        rfl
    · rw [show "https".data ++ "://".data ++ creds ++ host ++ ':' :: natDigits port =
        httpsMark ++ (creds ++ host ++ ':' :: natDigits port) from rfl]
      have hlast2 : (httpsMark ++ (creds ++ host ++ ':' :: natDigits port)).getLast? =
          some ((natDigits port).getLast hdne) := by
        rw [show httpsMark ++ (creds ++ host ++ ':' :: natDigits port) =
          (httpsMark ++ creds ++ host ++ [':']) ++ natDigits port by simp]
        rw [List.getLast?_append, hdlast]
        rfl
      have htrim := trimList_eq_self
        (show (httpsMark ++ (creds ++ host ++ ':' :: natDigits port)).head? = some 'h'
          from rfl) (by decide) hlast2 hdws
      constructor
      · unfold proxyWithScheme
        rw [htrim]
        rw [if_neg (by
          rw [show (httpsMark ++ (creds ++ host ++ ':' :: natDigits port)).isEmpty = false
            from rfl]
          exact Bool.false_ne_true)]
        rw [if_pos (by rw [isPrefixOf_append_self]; rw [Bool.or_true])]
      · unfold urlSchemeRest
        rw [if_pos (isPrefixOf_append_self _ _)]
        rfl
  obtain ⟨hpws, hrest⟩ := hfacts
  unfold normCore
  simp only [hpws, hrest, hnlM, hhost2, hport3]
  rw [if_neg (by omega)]
  rw [if_neg (fun hcon => hcon ⟨hport1, hport2⟩)]
  simp only [hipv, Bool.false_eq_true, if_false]
  rcases hinfo.2 with ⟨huio, hcempty⟩ | ⟨u, pw, hune, hpwne, huio, hcredeq⟩
  · simp only [huio]
    rw [hcempty]
    simp
  · simp only [huio]
    have hu2 : u.isEmpty = false := by
      cases u with
      | nil => exact absurd rfl hune
      | cons a b => rfl
    have hpw2 : pw.isEmpty = false := by
      cases pw with
      | nil => exact absurd rfl hpwne
      | cons a b => rfl
    rw [if_pos (by rw [hu2, hpw2]; rfl)]
    rw [hcredeq]

/-- Idempotence of `_normalize_proxy_url` on accepted inputs whose canonical
host is free of `':'` and `'['`. -/
theorem normCore_idem {x y : List Char} (h : normCore x = some y)
    (hhost : ∀ h0, canonHostOf x = some h0 → ':' ∉ h0 ∧ '[' ∉ h0) :
    normCore y = some y := by
  unfold normCore at h
  cases hp2 : proxyWithScheme x with
  | none => rw [hp2] at h; cases h
  | some p2 =>
  simp only [hp2] at h
  cases hh : hostnameOf (netlocOf (urlSchemeRest p2).2) with
  | none => simp only [hh] at h; cases h
  | some host =>
  simp only [hh] at h
  cases hpt : portOf (netlocOf (urlSchemeRest p2).2) with
  | none => simp only [hpt] at h; cases h
  | some port =>
  simp only [hpt] at h
  by_cases hz : port = 0
  · rw [if_pos hz] at h; cases h
  rw [if_neg hz] at h
  have hle : port ≤ 65535 := portOf_le hpt
  rw [if_neg (fun hcon => hcon ⟨by omega, hle⟩)] at h
  cases hipv : (ipv4Shape host && !octetsOk host) with
  | true => rw [if_pos hipv] at h; cases h
  | false =>
  rw [if_neg (by rw [hipv]; exact Bool.false_ne_true)] at h
  have hch : canonHostOf x = some host := by
    unfold canonHostOf
    simp only [hp2]
    exact hh
  obtain ⟨hcol, hbrk⟩ := hhost host hch
  have hh2 := hh
  unfold hostnameOf at hh2
  by_cases hie : ((hostinfoOf (netlocOf (urlSchemeRest p2).2)).1).isEmpty
  · rw [if_pos hie] at hh2; cases hh2
  rw [if_neg hie] at hh2
  have hhosteq : lowerList (hostinfoOf (netlocOf (urlSchemeRest p2).2)).1 = host :=
    Option.some.inj hh2
  have hnlmem : ∀ c ∈ netlocOf (urlSchemeRest p2).2, netChar c = true := by
    intro c hc
    unfold netlocOf at hc
    exact List.mem_takeWhile_imp hc
  have hh0sub := hostinfo_fst_subset (netlocOf (urlSchemeRest p2).2)
  have hh0noat := hostinfo_fst_no_at (netlocOf (urlSchemeRest p2).2)
  have hhostne : host ≠ [] := by
    intro he
    rw [he] at hhosteq
    have h0nil : (hostinfoOf (netlocOf (urlSchemeRest p2).2)).1 = [] := by
      have := hhosteq
      unfold lowerList at this
      exact List.map_eq_nil_iff.mp this
    rw [h0nil] at hie
    exact hie rfl
  have hhostnet : ∀ c ∈ host, netChar c = true := by
    intro c hc
    rw [← hhosteq] at hc
    unfold lowerList at hc
    obtain ⟨c0, hc0, rfl⟩ := List.mem_map.mp hc
    exact netChar_lower (hnlmem c0 (hh0sub c0 hc0))
  have hhostat : '@' ∉ host := by
    intro hc
    rw [← hhosteq] at hc
    unfold lowerList at hc
    obtain ⟨c0, hc0, heq⟩ := List.mem_map.mp hc
    have hc0at : c0 = '@' := lowerChar_eq_special (by decide) heq
    exact hh0noat (hc0at ▸ hc0)
  have hlower : lowerList host = host := by
    rw [← hhosteq]
    unfold lowerList
    rw [List.map_map]
    exact List.map_congr_left (fun c _ => by
      simp only [Function.comp_apply]
      exact lowerChar_idem c)
  have hsch : (urlSchemeRest p2).1 = "http".data ∨ (urlSchemeRest p2).1 = "https".data := by
    unfold urlSchemeRest
    split
    · exact Or.inr rfl
    · exact Or.inl rfl
  cases hui : userinfoOf (netlocOf (urlSchemeRest p2).2) with
  | none =>
    simp only [hui] at h
    obtain rfl := Option.some.inj h
    have hrec := normCore_reconstruct (urlSchemeRest p2).1 [] host port hsch
      (Or.inl rfl) (by intro c hc; cases hc) hhostne hhostnet hhostat hlower
      hcol hbrk hipv (by omega) hle
    simpa using hrec
  | some pr =>
    obtain ⟨u, pwo⟩ := pr
    cases pwo with
    | none =>
      simp only [hui] at h
      obtain rfl := Option.some.inj h
      have hrec := normCore_reconstruct (urlSchemeRest p2).1 [] host port hsch
        (Or.inl rfl) (by intro c hc; cases hc) hhostne hhostnet hhostat hlower
        hcol hbrk hipv (by omega) hle
      simpa using hrec
    | some pw =>
      simp only [hui] at h
      by_cases hcond : (!u.isEmpty && !pw.isEmpty) = true
      · rw [if_pos hcond] at h
        obtain rfl := Option.some.inj h
        have hune : u ≠ [] := by
          intro he
          rw [he] at hcond
          simp at hcond
        have hpwne : pw ≠ [] := by
          intro he
          rw [he] at hcond
          simp at hcond
        obtain ⟨husub, hpwsub, hucol⟩ := userinfo_facts hui
        have hcrnet : ∀ c ∈ u ++ ':' :: pw ++ ['@'], netChar c = true := by
          intro c hc
          rcases List.mem_append.mp hc with h1 | h1
          · rcases List.mem_append.mp h1 with h2 | h2
            · exact hnlmem c (husub c h2)
            · rcases List.mem_cons.mp h2 with h3 | h3
              · rw [h3]; decide
              · exact hnlmem c (hpwsub c h3)
          · rcases List.mem_cons.mp h1 with h3 | h3
            · rw [h3]; decide
            · cases h3
        exact normCore_reconstruct (urlSchemeRest p2).1 (u ++ ':' :: pw ++ ['@'])
          host port hsch (Or.inr ⟨u, pw, hune, hpwne, hucol, rfl⟩) hcrnet hhostne
          hhostnet hhostat hlower hcol hbrk hipv (by omega) hle
      · rw [if_neg hcond] at h
        obtain rfl := Option.some.inj h
        have hrec := normCore_reconstruct (urlSchemeRest p2).1 [] host port hsch
          (Or.inl rfl) (by intro c hc; cases hc) hhostne hhostnet hhostat hlower
          hcol hbrk hipv (by omega) hle
        simpa using hrec

/-- C8 counterexample: the bracketed IPv6 literal `[::1]:80` is accepted —
`urlparse` strips the brackets, so the canonical form is `http://::1:80` —
but normalising that output fails (its host parses as empty), so
`normalize (normalize x) = normalize x` is false at `x = "[::1]:80"`. -/
theorem claim_C8_counterexample :
    normalizeProxyUrl "[::1]:80" = some "http://::1:80" ∧
    normalizeProxyUrl "http://::1:80" = none := by
  constructor
  · decide
  · decide

/-- C8 (amended): normalisation is idempotent for every accepted input whose
canonical host contains neither `':'` nor `'['` (every non-bracketed host,
in particular every IPv4 or DNS-name proxy); for bracketed IPv6-style
literals the rebuilt URL drops the brackets and is rejected on re-parse, so
idempotence fails there. -/
theorem claim_C8 (x y : String) (h : normalizeProxyUrl x = some y)
    (hhost : ∀ h0, canonHostOf x.data = some h0 → ':' ∉ h0 ∧ '[' ∉ h0) :
    normalizeProxyUrl y = some y := by
  unfold normalizeProxyUrl at h ⊢
  cases hc : normCore x.data with
  | none => rw [hc] at h; cases h
  | some y0 =>
    rw [hc] at h
    obtain rfl : String.mk y0 = y := Option.some.inj h
    have hidem := normCore_idem hc hhost
    rw [show (String.mk y0).data = y0 from rfl, hidem]
    rfl

/-- C8 witness: a plain IPv4 specifier normalises to a fixed point. -/
theorem claim_C8_witness :
    normalizeProxyUrl "http://1.2.3.4:80" = some "http://1.2.3.4:80" := by
  apply claim_C8 "1.2.3.4:80" "http://1.2.3.4:80" (by decide)
  intro h0 hh
  have hc : canonHostOf ("1.2.3.4:80" : String).data = some "1.2.3.4".data := by decide
  rw [hc] at hh
  obtain rfl := Option.some.inj hh
  exact ⟨by decide, by decide⟩

end MyVisaBot
